import Mathlib

/-!
Verification development for the sprite-index replacement tool
(`replace_sprite_indices_gui.py`).

The core pipeline is embedded shallowly over `List Char`:

* `load_sprite_map` models the mapping-file loader (strip, comment/blank
  skip, split at the first `-`, dict insertion with last-wins semantics).
* `matchAt` models matching of the regex `(VAR)\s*=\s*(\d+)\s*;` at a fixed
  position, where `VAR` is either the literal `sprite_index` or the
  wildcard shape `\w*spr\w*`.  For these patterns Python's backtracking
  search is equivalent to taking maximal character-class runs: the
  whole maximal word run must contain `spr` (wildcard case), and each of
  the `\s*`, `\d+` runs is maximal because its terminator is of a
  disjoint character class, so no backtracking can ever succeed.
* `reSub` models `re.sub` with a replacement callback: scan left to
  right, at each position try the pattern; on a match whose digit group
  is a mapping key emit the replacement fragment `<var> = <value>;`, on a
  match with an unknown key emit the matched span unchanged, otherwise
  copy one character; matching resumes after the consumed text and
  replacements are never rescanned within the same pass.
* `replace_in_file` applies both patterns in order to every line and
  collects replacement records, log messages and the changed flag.
* `scan_and_replace` walks an explicit file list over an association-list
  filesystem, filtering by the recognized extensions, and threads the two
  log sinks (GUI callback and session log file) plus the status callback.
  File reads go through `Except`; the Python code has no try/except
  around the per-file work, so a read failure aborts the whole walk, and
  the embedding mirrors that by propagating `.error`.

Character classes use the ASCII readings of `\w`, `\d`, `\s` (the target
files are GameMaker source text); `os.walk` is modelled by an explicit
list of file paths, and `file.endswith(ext)` is applied to the full path,
which is equivalent because no extension contains a path separator.
-/

abbrev Str := List Char

def chars (s : String) : Str := s.toList

/-- Character class of `\w` (ASCII reading). -/
def isWordC (c : Char) : Bool := c.isAlphanum || c == '_'

/-- Character class of `\s` (ASCII reading). -/
def isSpaceC (c : Char) : Bool := c.isWhitespace

/-- Character class of `\d` (ASCII reading). -/
def isDigitC (c : Char) : Bool := c.isDigit

/-- Containment of `needle` as a contiguous substring, modelling the
regex fragment `\w*spr\w*` accepting any word run containing `spr`. -/
def hasSub (needle : Str) : Str → Bool
  | [] => needle.isEmpty
  | c :: cs => needle.isPrefixOf (c :: cs) || hasSub needle cs

/-- Python `str.strip()`. -/
def stripC (s : Str) : Str :=
  ((s.dropWhile isSpaceC).reverse.dropWhile isSpaceC).reverse

/-- The sprite map: insertion-ordered key/value pairs with dict semantics. -/
abbrev SMap := List (Str × Str)

def mapFind (m : SMap) (k : Str) : Option Str :=
  (m.find? (fun kv => kv.1 == k)).map (·.2)

/-- Python dict assignment `mapping[key] = value`: overwrite in place on an
existing key, append otherwise. -/
def mapInsert (m : SMap) (k v : Str) : SMap :=
  if m.any (fun kv => kv.1 == k) then
    m.map (fun kv => if kv.1 == k then (kv.1, v) else kv)
  else m ++ [(k, v)]

/-- One line of the loader loop body of `load_sprite_map`. -/
def loadLine (m : SMap) (line : Str) : SMap :=
  let t := stripC line
  if t = [] then m
  else if t.head? = some '#' then m
  else if ¬ t.contains '-' then m
  else
    mapInsert m (stripC (t.takeWhile (fun c => c != '-')))
      (stripC ((t.dropWhile (fun c => c != '-')).drop 1))

/-- The mapping loader `load_sprite_map`, over the file's list of lines. -/
def load_sprite_map (ls : List Str) : SMap := ls.foldl loadLine []

/-- Variable-name shapes: the literal `sprite_index`, or any word run
containing a fixed fragment (`\w*spr\w*`). -/
inductive VarPat where
  | lit (tok : Str)
  | wild (inner : Str)

/-- SPRITE_VARS from the source, in order. -/
def pat1 : VarPat := .lit (chars "sprite_index")
def pat2 : VarPat := .wild (chars "spr")
def SPRITE_VARS : List VarPat := [pat1, pat2]

/-- Match the tail `\s*=\s*(\d+)\s*;` at the start of `s`; on success
return the pieces `(w1, w2, ds, w3, rest)` so that
`s = w1 ++ '=' :: (w2 ++ (ds ++ (w3 ++ ';' :: rest)))`. -/
def matchTail (s : Str) : Option (Str × Str × Str × Str × Str) :=
  match s.dropWhile isSpaceC with
  | [] => none
  | a :: r2 =>
    if a = '=' then
      if (r2.dropWhile isSpaceC).takeWhile isDigitC = [] then none
      else
        match ((r2.dropWhile isSpaceC).dropWhile isDigitC).dropWhile isSpaceC with
        | [] => none
        | b :: rest =>
          if b = ';' then
            some (s.takeWhile isSpaceC, r2.takeWhile isSpaceC,
              (r2.dropWhile isSpaceC).takeWhile isDigitC,
              ((r2.dropWhile isSpaceC).dropWhile isDigitC).takeWhile isSpaceC, rest)
          else none
    else none

/-- Try the full pattern `(VAR)\s*=\s*(\d+)\s*;` at the start of `s`.
On success return `(varname, num, span, rest)`: the two capture groups,
the whole matched span and the unconsumed remainder. -/
def matchAt (p : VarPat) (s : Str) : Option (Str × Str × Str × Str) :=
  match p with
  | .lit tok =>
    if tok.isPrefixOf s then
      match matchTail (s.drop tok.length) with
      | some (w1, w2, ds, w3, rest) =>
        some (tok, ds, tok ++ (w1 ++ '=' :: (w2 ++ (ds ++ (w3 ++ [';'])))), rest)
      | none => none
    else none
  | .wild inner =>
    if hasSub inner (s.takeWhile isWordC) then
      match matchTail (s.dropWhile isWordC) with
      | some (w1, w2, ds, w3, rest) =>
        some (s.takeWhile isWordC, ds,
          s.takeWhile isWordC ++ (w1 ++ '=' :: (w2 ++ (ds ++ (w3 ++ [';'])))), rest)
      | none => none
    else none

/-- One substitution event inside a line: the two capture groups and the
replacement fragment `f"{varname} = {sprite_map[num]};"` returned by the
`repl` callback. -/
structure SubRec where
  varname : Str
  num : Str
  newtext : Str
deriving DecidableEq, Repr

/-- Fuel-driven worker for `re.sub`: scan left to right, replacing
accepted matches, emitting unknown-key matches unchanged and copying
single characters where the pattern does not match. -/
def subF (m : SMap) (p : VarPat) : Nat → Str → Str × List SubRec
  | 0, s => (s, [])
  | fuel + 1, s =>
    match s with
    | [] => ([], [])
    | c :: cs =>
      match matchAt p s with
      | none =>
        let r := subF m p fuel cs
        (c :: r.1, r.2)
      | some (g1, ds, span, rest) =>
        match mapFind m ds with
        | some v =>
          let nl := g1 ++ (chars " = " ++ (v ++ [';']))
          let r := subF m p fuel rest
          (nl ++ r.1, ⟨g1, ds, nl⟩ :: r.2)
        | none =>
          let r := subF m p fuel rest
          (span ++ r.1, r.2)

/-- The pass `line = re.sub(pattern, repl, line)` for one pattern. -/
def reSub (m : SMap) (p : VarPat) (s : Str) : Str × List SubRec :=
  subF m p s.length s

/-- Both pattern passes over one line, in SPRITE_VARS order; the second
pattern reprocesses the text already rewritten by the first. -/
def lineSub (m : SMap) (line : Str) : Str × List SubRec :=
  SPRITE_VARS.foldl
    (fun acc p =>
      let r := reSub m p acc.1
      (r.1, acc.2 ++ r.2))
    (line, [])

/-- Decimal digit string of a natural number (worker with fuel). -/
def natStrGo : Nat → Nat → Str
  | 0, _ => []
  | fuel + 1, n =>
    if n < 10 then [Nat.digitChar n]
    else natStrGo fuel (n / 10) ++ [Nat.digitChar (n % 10)]

/-- Decimal digit string of a natural number, modelling `f"{idx}"`. -/
def natStr (n : Nat) : Str := natStrGo (n + 1) n

/-- `os.path.basename` for `/`-joined paths. -/
def basenameC (p : Str) : Str :=
  (p.reverse.takeWhile (fun c => c != '/')).reverse

/-- The log line `f"[{basename}:{idx}] {orig.strip()} → {new_line}"`. -/
def fmtMsg (fname : Str) (idx : Nat) (orig : Str) (newtext : Str) : Str :=
  chars "[" ++ basenameC fname ++ chars ":" ++ natStr idx ++ chars "] "
    ++ stripC orig ++ chars " → " ++ newtext

/-- A ReplacementRecord `(orig_line, new_line, idx)`. -/
structure RepRec where
  orig : Str
  newtext : Str
  idx : Nat
deriving DecidableEq, Repr

/-- Result of the pure part of `replace_in_file` on a list of lines. -/
structure FileRun where
  newlines : List Str
  recs : List RepRec
  msgs : List Str
  changed : Bool
deriving DecidableEq, Repr

/-- The per-line loop of `replace_in_file`, carrying the 1-based index. -/
def replaceLines (m : SMap) (fname : Str) : Nat → List Str → FileRun
  | _, [] => ⟨[], [], [], false⟩
  | idx, l :: ls =>
    let r := lineSub m l
    let rest := replaceLines m fname (idx + 1) ls
    ⟨r.1 :: rest.newlines,
     r.2.map (fun sr => ⟨l, sr.newtext, idx⟩) ++ rest.recs,
     r.2.map (fun sr => fmtMsg fname idx l sr.newtext) ++ rest.msgs,
     (r.1 != l) || rest.changed⟩

/-- The pure core of `replace_in_file`: new lines, ReplacementRecords, log
messages and the changed flag, from the file's lines. -/
def replace_in_file (m : SMap) (fname : Str) (lines : List Str) : FileRun :=
  replaceLines m fname 1 lines

/-- Filesystem model: newest-first association list from full paths to
file contents given as the `readlines` decomposition. -/
abbrev FS := List (Str × List Str)

def fsRead (fs : FS) (p : Str) : Option (List Str) :=
  (fs.find? (fun e => e.1 == p)).map (·.2)

def fsWrite (fs : FS) (p : Str) (content : List Str) : FS :=
  (p, content) :: fs

def bakName (p : Str) : Str := p ++ chars ".bak"

/-- backup_file: copy to `<path>.bak` only when that path does not exist;
`content` is the file's current content (the copy source). -/
def backup_file (fs : FS) (p : Str) (content : List Str) : FS :=
  if fsRead fs (bakName p) = none then fsWrite fs (bakName p) content else fs

/-- replace_in_file including its I/O: read (which can fail), rewrite, and
on a change backup-then-overwrite.  An unreadable file raises IOError,
modelled by `.error`. -/
def replaceInFileFS (m : SMap) (fs : FS) (p : Str) :
    Except Unit (FS × FileRun) :=
  match fsRead fs p with
  | none => .error ()
  | some lines =>
    let run := replace_in_file m p lines
    if run.changed then
      .ok (fsWrite (backup_file fs p lines) p run.newlines, run)
    else .ok (fs, run)

def CODE_EXTENSIONS : List Str := [chars ".gml", chars ".yy", chars ".yyp"]

/-- The eligibility test `any(file.endswith(ext) for ext in CODE_EXTENSIONS)`. -/
def eligible (f : Str) : Bool := CODE_EXTENSIONS.any (fun e => e.isSuffixOf f)

/-- Aggregate result of a run: final filesystem, changed-file list, tagged
replacement records, GUI-callback lines, session-log lines, status lines. -/
structure ScanResult where
  fs : FS
  replaced : List Str
  reps : List (Str × RepRec)
  gui : List Str
  logm : List Str
  status : List Str
deriving Repr

/-- The walk loop of `scan_and_replace`.  There is no try/except around
the per-file work in the source, so a failing file read propagates and
aborts the loop. -/
def scanGo (m : SMap) : FS → List Str → Except Unit ScanResult
  | fs, [] => .ok ⟨fs, [], [], [], [], []⟩
  | fs, f :: rest =>
    if eligible f then
      match replaceInFileFS m fs f with
      | .error e => .error e
      | .ok (fs₁, run) =>
        match scanGo m fs₁ rest with
        | .error e => .error e
        | .ok r =>
          .ok ⟨r.fs,
               (if run.changed then [f] else []) ++ r.replaced,
               (if run.changed then run.recs.map (fun rr => (f, rr)) else [])
                 ++ r.reps,
               (chars "Checking: " ++ f) :: (run.msgs ++ r.gui),
               run.msgs ++ r.logm,
               (chars "Scanning: " ++ f) :: r.status⟩
    else scanGo m fs rest

/-- The summary block written at the end of a run. -/
def mkSummary (n : Nat) (logPath : Str) : Str :=
  chars "\nReplacements done in " ++ natStr n
    ++ chars " files.\nLog saved to " ++ logPath ++ chars "\n"

/-- scan_and_replace: run the walk, then append the summary to both log
sinks and emit the final status. -/
def scan_and_replace (m : SMap) (fs : FS) (files : List Str) (logPath : Str) :
    Except Unit ScanResult :=
  match scanGo m fs files with
  | .error e => .error e
  | .ok r =>
    let summary := mkSummary r.replaced.length logPath
    .ok ⟨r.fs, r.replaced, r.reps, r.gui ++ [summary], r.logm ++ [summary],
         r.status ++ [chars "Done."]⟩

/-- An accepted match at the start of `s`: the pattern matches and the
digit group is a key of the mapping (the branch of `repl` that rewrites). -/
def acceptsAt (m : SMap) (p : VarPat) (s : Str) : Bool :=
  match matchAt p s with
  | some (_, ds, _, _) => (mapFind m ds).isSome
  | none => false

/-- No accepted match anywhere in `s`: on such text `re.sub` is the
identity and produces no substitution events. -/
def noAcc (m : SMap) (p : VarPat) (s : Str) : Prop :=
  ∀ i, acceptsAt m p (s.drop i) = false

/-- Mapping-value condition for idempotence: no value contains a digit
character or a semicolon. -/
def valsOK (m : SMap) : Prop :=
  ∀ k v, mapFind m k = some v → ∀ c ∈ v, isDigitC c = false ∧ c ≠ ';'

/-- Boolean form of the mapping-value condition, decidable on a concrete
mapping: every value is free of digit characters and semicolons. -/
def valsOKb (m : SMap) : Bool :=
  m.all (fun kv => kv.2.all (fun c => !isDigitC c && c != ';'))

/-- Extract the result of a successful run (dummy on error). -/
def getOk : Except Unit ScanResult → ScanResult
  | .ok r => r
  | .error _ => ⟨[], [], [], [], [], []⟩

/-- Extract the result of a successful per-file step (dummy on error). -/
def getOkF : Except Unit (FS × FileRun) → FS × FileRun
  | .ok pr => pr
  | .error _ => ([], ⟨[], [], [], false⟩)

/-- The mapping of the spec's exact-match example. -/
def exMap : SMap := [(chars "12", chars "spr_player_idle")]

/-- Concrete one-file project used to instantiate run-level theorems. -/
def wMap : SMap := exMap

def wFS : FS :=
  [(chars "proj/obj.gml", [chars "sprite_index = 12;", chars "x = 3;"])]

def wFiles : List Str := [chars "proj/obj.gml"]

def wLog : Str := chars "log.txt"

def wR1 : ScanResult := getOk (scan_and_replace wMap wFS wFiles wLog)

def wR2 : ScanResult := getOk (scan_and_replace wMap wR1.fs wFiles wLog)

/-- Digit-valued mapping whose values are themselves keys: the rewrite
keeps producing new matches on later runs. -/
def cexMap : SMap :=
  [(chars "12", chars "34"), (chars "34", chars "56"), (chars "56", chars "78")]

def cexFS : FS := [(chars "p/a.gml", [chars "sprite_index = 12;"])]

def cexR1 : ScanResult :=
  getOk (scan_and_replace cexMap cexFS [chars "p/a.gml"] wLog)

def cexR2 : ScanResult :=
  getOk (scan_and_replace cexMap cexR1.fs [chars "p/a.gml"] wLog)

/-- Project whose file already has a stale backup from an earlier session. -/
def staleFS : FS :=
  [(chars "p/a.gml", [chars "sprite_index = 12;"]),
   (chars "p/a.gml.bak", [chars "old backup"])]

def staleR : ScanResult :=
  getOk (scan_and_replace wMap staleFS [chars "p/a.gml"] wLog)

def stale1 : FS × FileRun := getOkF (replaceInFileFS wMap staleFS (chars "p/a.gml"))

/-- File with no rewritable line at all. -/
def quietFS : FS := [(chars "q/u.gml", [chars "draw_self();"])]

def quiet1 : FS × FileRun := getOkF (replaceInFileFS wMap quietFS (chars "q/u.gml"))

/-- Two-cycle mapping: the two passes rewrite a line back to itself, so the
file never reports as changed while substitutions are still logged. -/
def cycMap : SMap := [(chars "12", chars "34"), (chars "34", chars "12")]

def cycFS : FS := [(chars "c/a.gml", [chars "sprite_index = 12;"])]

def cycR : ScanResult :=
  getOk (scan_and_replace cycMap cycFS [chars "c/a.gml"] wLog)

/-! ## Character class facts -/

theorem sp_cases {c : Char} (h : isSpaceC c = true) :
    c = ' ' ∨ c = '\t' ∨ c = '\r' ∨ c = '\n' := by
  simp only [isSpaceC, Char.isWhitespace, Bool.or_eq_true, decide_eq_true_eq] at h
  tauto

theorem sp_props {c : Char} (h : isSpaceC c = true) :
    isWordC c = false ∧ isDigitC c = false ∧ c ≠ ';' ∧ c ≠ '=' := by
  rcases sp_cases h with rfl | rfl | rfl | rfl <;>
    exact ⟨by decide, by decide, by decide, by decide⟩

theorem dig_word {c : Char} (h : isDigitC c = true) : isWordC c = true := by
  simp only [isDigitC] at h
  simp [isWordC, Char.isAlphanum, h]

theorem dig_props {c : Char} (h : isDigitC c = true) :
    isSpaceC c = false ∧ c ≠ ';' ∧ c ≠ '=' := by
  refine ⟨?_, ?_, ?_⟩
  · cases hs : isSpaceC c with
    | false => rfl
    | true => exact absurd h (by simp [(sp_props hs).2.1])
  · intro hc; subst hc; exact absurd h (by decide)
  · intro hc; subst hc; exact absurd h (by decide)

theorem word_props {c : Char} (h : isWordC c = true) :
    isSpaceC c = false ∧ c ≠ ';' ∧ c ≠ '=' := by
  refine ⟨?_, ?_, ?_⟩
  · cases hs : isSpaceC c with
    | false => rfl
    | true => exact absurd h (by simp [(sp_props hs).1])
  · intro hc; subst hc; exact absurd h (by decide)
  · intro hc; subst hc; exact absurd h (by decide)

/-! ## takeWhile and dropWhile splitting helpers -/

theorem tw_split {p : Char → Bool} {u v : Str} (hu : ∀ c ∈ u, p c = true)
    (hv : ∀ c, v.head? = some c → p c = false) :
    (u ++ v).takeWhile p = u ∧ (u ++ v).dropWhile p = v := by
  constructor
  · rw [List.takeWhile_append_of_pos hu]
    cases v with
    | nil => simp
    | cons c cs => simp [List.takeWhile_cons, hv c rfl]
  · rw [List.dropWhile_append_of_pos hu]
    cases v with
    | nil => simp
    | cons c cs => simp [List.dropWhile_cons, hv c rfl]

/-! ## matchTail: the shape of a successful match, and its converse -/

theorem matchTail_shape {s w1 w2 ds w3 rest : Str}
    (h : matchTail s = some (w1, w2, ds, w3, rest)) :
    s = w1 ++ '=' :: (w2 ++ (ds ++ (w3 ++ ';' :: rest)))
      ∧ (∀ c ∈ w1, isSpaceC c = true) ∧ (∀ c ∈ w2, isSpaceC c = true)
      ∧ (∀ c ∈ w3, isSpaceC c = true) ∧ ds ≠ [] ∧ (∀ c ∈ ds, isDigitC c = true) := by
  unfold matchTail at h
  split at h
  · simp at h
  · rename_i x a r2 heq
    split at h
    · rename_i ha
      subst ha
      split at h
      · simp at h
      · rename_i hds
        split at h
        · simp at h
        · rename_i y b rest2 heq2
          split at h
          · rename_i hb
            subst hb
            simp only [Option.some.injEq, Prod.mk.injEq] at h
            obtain ⟨h1, h2, h3, h4, h5⟩ := h
            subst h1; subst h2; subst h3; subst h4; subst h5
            refine ⟨?_, fun c hc => List.mem_takeWhile_imp hc,
              fun c hc => List.mem_takeWhile_imp hc,
              fun c hc => List.mem_takeWhile_imp hc, hds,
              fun c hc => List.mem_takeWhile_imp hc⟩
            have e1 : s = List.takeWhile isSpaceC s ++ ('=' :: r2) := by
              rw [← heq, List.takeWhile_append_dropWhile]
            have e2 : r2 = List.takeWhile isSpaceC r2 ++ r2.dropWhile isSpaceC :=
              (List.takeWhile_append_dropWhile _ _).symm
            have e3 : r2.dropWhile isSpaceC
                = List.takeWhile isDigitC (r2.dropWhile isSpaceC)
                  ++ (r2.dropWhile isSpaceC).dropWhile isDigitC :=
              (List.takeWhile_append_dropWhile _ _).symm
            have e4 : (r2.dropWhile isSpaceC).dropWhile isDigitC
                = List.takeWhile isSpaceC ((r2.dropWhile isSpaceC).dropWhile isDigitC)
                  ++ (';' :: rest2) := by
              rw [← heq2, List.takeWhile_append_dropWhile]
            conv_lhs => rw [e1, e2, e3, e4]
          · simp at h
    · simp at h

theorem matchTail_build {w1 w2 ds w3 : Str} (rest : Str)
    (hw1 : ∀ c ∈ w1, isSpaceC c = true) (hw2 : ∀ c ∈ w2, isSpaceC c = true)
    (hw3 : ∀ c ∈ w3, isSpaceC c = true)
    (hds : ds ≠ []) (hdig : ∀ c ∈ ds, isDigitC c = true) :
    matchTail (w1 ++ '=' :: (w2 ++ (ds ++ (w3 ++ ';' :: rest))))
      = some (w1, w2, ds, w3, rest) := by
  obtain ⟨t1, d1⟩ := tw_split (v := '=' :: (w2 ++ (ds ++ (w3 ++ ';' :: rest)))) hw1
    (by intro c hc; injection hc with hc; subst hc; decide)
  obtain ⟨t2, d2⟩ := tw_split (u := w2) (v := ds ++ (w3 ++ ';' :: rest)) hw2
    (by
      intro c hc
      cases ds with
      | nil => exact absurd rfl hds
      | cons d dtl =>
        injection hc with hc; subst hc
        exact (dig_props (hdig _ (by simp))).1)
  obtain ⟨t3, d3⟩ := tw_split (u := ds) (v := w3 ++ ';' :: rest) hdig
    (by
      intro c hc
      cases w3 with
      | nil => injection hc with hc; subst hc; decide
      | cons e etl =>
        injection hc with hc; subst hc
        exact (sp_props (hw3 _ (by simp))).2.1)
  obtain ⟨t4, d4⟩ := tw_split (u := w3) (v := ';' :: rest) hw3
    (by intro c hc; injection hc with hc; subst hc; decide)
  unfold matchTail
  rw [d1]
  simp only [reduceIte, t2, d2, t3, d3, t4, d4]
  rw [if_neg (by simpa using hds)]
  simp [t1, t2, t3, d2, d3, d4, t4]

/-! ## matchAt: shape, converse construction, and span stability -/

theorem matchTail_nil : matchTail [] = none := rfl

theorem matchAt_nil (p : VarPat) : matchAt p [] = none := by
  cases p with
  | lit tok =>
    simp only [matchAt, List.drop_nil, matchTail_nil]
    split <;> rfl
  | wild inner =>
    simp only [matchAt, List.takeWhile_nil, List.dropWhile_nil, matchTail_nil]
    split <;> rfl

theorem matchAt_lit_name {tok s g1 ds span rest : Str}
    (h : matchAt (.lit tok) s = some (g1, ds, span, rest)) : g1 = tok := by
  simp only [matchAt] at h
  split at h
  · cases hmt : matchTail (s.drop tok.length) with
    | none => rw [hmt] at h; simp at h
    | some tup =>
      obtain ⟨w1, w2, ds0, w3, rest0⟩ := tup
      rw [hmt] at h
      simp only [Option.some.injEq, Prod.mk.injEq] at h
      exact h.1.symm
  · simp at h

theorem matchAt_wild_name {inner s g1 ds span rest : Str}
    (h : matchAt (.wild inner) s = some (g1, ds, span, rest)) :
    g1 = s.takeWhile isWordC ∧ hasSub inner g1 = true := by
  simp only [matchAt] at h
  split at h
  · rename_i hsub
    cases hmt : matchTail (s.dropWhile isWordC) with
    | none => rw [hmt] at h; simp at h
    | some tup =>
      obtain ⟨w1, w2, ds0, w3, rest0⟩ := tup
      rw [hmt] at h
      simp only [Option.some.injEq, Prod.mk.injEq] at h
      exact ⟨h.1.symm, h.1 ▸ hsub⟩
  · simp at h

theorem matchAt_shape {p : VarPat} {s g1 ds span rest : Str}
    (h : matchAt p s = some (g1, ds, span, rest)) :
    ∃ w1 w2 w3,
      s = span ++ rest
      ∧ span = g1 ++ (w1 ++ '=' :: (w2 ++ (ds ++ (w3 ++ [';']))))
      ∧ (∀ c ∈ w1, isSpaceC c = true) ∧ (∀ c ∈ w2, isSpaceC c = true)
      ∧ (∀ c ∈ w3, isSpaceC c = true) ∧ ds ≠ [] ∧ (∀ c ∈ ds, isDigitC c = true) := by
  cases p with
  | lit tok =>
    simp only [matchAt] at h
    split at h
    · rename_i hpre
      cases hmt : matchTail (s.drop tok.length) with
      | none => rw [hmt] at h; simp at h
      | some tup =>
        obtain ⟨w1, w2, ds0, w3, rest0⟩ := tup
        rw [hmt] at h
        simp only [Option.some.injEq, Prod.mk.injEq] at h
        obtain ⟨hg, hds, hspan, hrest⟩ := h
        subst hg; subst hds; subst hspan; subst hrest
        obtain ⟨hseq, hw1, hw2, hw3, hne, hdig⟩ := matchTail_shape hmt
        refine ⟨w1, w2, w3, ?_, rfl, hw1, hw2, hw3, hne, hdig⟩
        obtain ⟨t, ht⟩ := List.isPrefixOf_iff_prefix.mp hpre
        have hdrop : s.drop tok.length = t := by rw [← ht, List.drop_left]
        rw [hdrop] at hseq
        rw [← ht, hseq]
        simp [List.append_assoc]
    · simp at h
  | wild inner =>
    simp only [matchAt] at h
    split at h
    · cases hmt : matchTail (s.dropWhile isWordC) with
      | none => rw [hmt] at h; simp at h
      | some tup =>
        obtain ⟨w1, w2, ds0, w3, rest0⟩ := tup
        rw [hmt] at h
        simp only [Option.some.injEq, Prod.mk.injEq] at h
        obtain ⟨hg, hds, hspan, hrest⟩ := h
        subst hg; subst hds; subst hspan; subst hrest
        obtain ⟨hseq, hw1, hw2, hw3, hne, hdig⟩ := matchTail_shape hmt
        refine ⟨w1, w2, w3, ?_, rfl, hw1, hw2, hw3, hne, hdig⟩
        conv_lhs => rw [← List.takeWhile_append_dropWhile (p := isWordC) (l := s), hseq]
        simp [List.append_assoc]
    · simp at h

theorem matchAt_build_lit {tok w1 w2 ds w3 : Str} (rest : Str)
    (hw1 : ∀ c ∈ w1, isSpaceC c = true) (hw2 : ∀ c ∈ w2, isSpaceC c = true)
    (hw3 : ∀ c ∈ w3, isSpaceC c = true)
    (hds : ds ≠ []) (hdig : ∀ c ∈ ds, isDigitC c = true) :
    matchAt (.lit tok) (tok ++ (w1 ++ '=' :: (w2 ++ (ds ++ (w3 ++ ';' :: rest)))))
      = some (tok, ds, tok ++ (w1 ++ '=' :: (w2 ++ (ds ++ (w3 ++ [';'])))), rest) := by
  simp only [matchAt]
  rw [if_pos (List.isPrefixOf_iff_prefix.mpr ⟨_, rfl⟩), List.drop_left,
    matchTail_build rest hw1 hw2 hw3 hds hdig]

theorem matchAt_build_wild {inner g1 w1 w2 ds w3 : Str} (rest : Str)
    (hg : ∀ c ∈ g1, isWordC c = true) (hsub : hasSub inner g1 = true)
    (hw1 : ∀ c ∈ w1, isSpaceC c = true) (hw2 : ∀ c ∈ w2, isSpaceC c = true)
    (hw3 : ∀ c ∈ w3, isSpaceC c = true)
    (hds : ds ≠ []) (hdig : ∀ c ∈ ds, isDigitC c = true) :
    matchAt (.wild inner) (g1 ++ (w1 ++ '=' :: (w2 ++ (ds ++ (w3 ++ ';' :: rest)))))
      = some (g1, ds, g1 ++ (w1 ++ '=' :: (w2 ++ (ds ++ (w3 ++ [';'])))), rest) := by
  obtain ⟨tw, dw⟩ := tw_split (p := isWordC)
    (u := g1) (v := w1 ++ '=' :: (w2 ++ (ds ++ (w3 ++ ';' :: rest)))) hg
    (by
      intro c hc
      cases w1 with
      | nil => injection hc with hc; subst hc; decide
      | cons e etl =>
        injection hc with hc; subst hc
        exact (sp_props (hw1 _ (by simp))).1)
  simp only [matchAt]
  simp only [tw, dw, hsub, if_true, matchTail_build rest hw1 hw2 hw3 hds hdig]

theorem matchAt_span {p : VarPat} {s g1 ds span rest : Str}
    (h : matchAt p s = some (g1, ds, span, rest)) (z : Str) :
    matchAt p (span ++ z) = some (g1, ds, span, z) := by
  obtain ⟨w1, w2, w3, hs, hspan, hw1, hw2, hw3, hne, hdig⟩ := matchAt_shape h
  have hassoc : span ++ z = g1 ++ (w1 ++ '=' :: (w2 ++ (ds ++ (w3 ++ ';' :: z)))) := by
    rw [hspan]; simp [List.append_assoc]
  cases p with
  | lit tok =>
    have hg := matchAt_lit_name h
    subst hg
    rw [hassoc, matchAt_build_lit z hw1 hw2 hw3 hne hdig, ← hspan]
  | wild inner =>
    obtain ⟨hg, hsub⟩ := matchAt_wild_name h
    have hword : ∀ c ∈ g1, isWordC c = true := by
      intro c hc; rw [hg] at hc; exact List.mem_takeWhile_imp hc
    rw [hassoc, matchAt_build_wild z hword hsub hw1 hw2 hw3 hne hdig, ← hspan]

theorem pat1_to_pat2 {s g1 ds span rest : Str}
    (h : matchAt pat1 s = some (g1, ds, span, rest)) :
    matchAt pat2 s = some (g1, ds, span, rest) := by
  obtain ⟨w1, w2, w3, hs, hspan, hw1, hw2, hw3, hne, hdig⟩ := matchAt_shape h
  have hg := matchAt_lit_name h
  have hword : ∀ c ∈ g1, isWordC c = true := by rw [hg]; decide
  have hsub : hasSub (chars "spr") g1 = true := by rw [hg]; decide
  have hassoc : s = g1 ++ (w1 ++ '=' :: (w2 ++ (ds ++ (w3 ++ ';' :: rest)))) := by
    rw [hs, hspan]; simp [List.append_assoc]
  rw [hassoc]
  rw [show pat2 = .wild (chars "spr") from rfl,
    matchAt_build_wild rest hword hsub hw1 hw2 hw3 hne hdig, ← hspan]

theorem matchAt_consume {p : VarPat} {s g1 ds span rest : Str}
    (h : matchAt p s = some (g1, ds, span, rest)) :
    s = span ++ rest ∧ rest.length < s.length := by
  obtain ⟨w1, w2, w3, hs, hspan, _⟩ := matchAt_shape h
  refine ⟨hs, ?_⟩
  have hne : span ≠ [] := by
    rw [hspan]
    intro hcon
    rcases List.append_eq_nil.mp hcon with ⟨-, h2⟩
    rcases List.append_eq_nil.mp h2 with ⟨-, h3⟩
    exact absurd h3 (by simp)
  rw [hs, List.length_append]
  have := List.length_pos.mpr hne
  omega


/-! ## The scanning worker: fuel irrelevance and unfolding equations -/

theorem subF_fuel (m : SMap) (p : VarPat) :
    ∀ f₁ f₂ s, s.length ≤ f₁ → s.length ≤ f₂ → subF m p f₁ s = subF m p f₂ s := by
  intro f₁
  induction f₁ with
  | zero =>
    intro f₂ s h1 _
    have : s = [] := List.length_eq_zero.mp (Nat.le_zero.mp h1)
    subst this
    cases f₂ <;> rfl
  | succ f ih =>
    intro f₂ s h1 h2
    cases s with
    | nil => cases f₂ <;> rfl
    | cons c cs =>
      cases f₂ with
      | zero => simp at h2
      | succ f₂' =>
        simp only [subF]
        cases hma : matchAt p (c :: cs) with
        | none =>
          simp only [hma]
          rw [ih f₂' cs (by simpa using h1) (by simpa using h2)]
        | some tup =>
          obtain ⟨g1, ds, span, rest⟩ := tup
          simp only [hma]
          have hlen := (matchAt_consume hma).2
          simp only [List.length_cons] at h1 h2 hlen
          have hr : rest.length ≤ f := by omega
          have hr2 : rest.length ≤ f₂' := by omega
          cases hmf : mapFind m ds <;> simp only [hmf] <;> rw [ih f₂' rest hr hr2]

theorem reSub_copy {m : SMap} {p : VarPat} {c : Char} {cs : Str}
    (h : matchAt p (c :: cs) = none) :
    reSub m p (c :: cs) = (c :: (reSub m p cs).1, (reSub m p cs).2) := by
  unfold reSub
  simp only [List.length_cons, subF, h]

theorem reSub_skip {m : SMap} {p : VarPat} {s g1 ds span rest : Str}
    (h : matchAt p s = some (g1, ds, span, rest)) (hm : mapFind m ds = none) :
    reSub m p s = (span ++ (reSub m p rest).1, (reSub m p rest).2) := by
  obtain ⟨hs, hlen⟩ := matchAt_consume h
  cases s with
  | nil => rw [matchAt_nil] at h; simp at h
  | cons c cs =>
    unfold reSub
    simp only [List.length_cons, subF, h, hm]
    simp only [List.length_cons] at hlen
    rw [subF_fuel m p cs.length rest.length rest (by omega) le_rfl]

theorem reSub_hit {m : SMap} {p : VarPat} {s g1 ds span rest v : Str}
    (h : matchAt p s = some (g1, ds, span, rest)) (hm : mapFind m ds = some v) :
    reSub m p s
      = ((g1 ++ (chars " = " ++ (v ++ [';']))) ++ (reSub m p rest).1,
         ⟨g1, ds, g1 ++ (chars " = " ++ (v ++ [';']))⟩ :: (reSub m p rest).2) := by
  obtain ⟨hs, hlen⟩ := matchAt_consume h
  cases s with
  | nil => rw [matchAt_nil] at h; simp at h
  | cons c cs =>
    unfold reSub
    simp only [List.length_cons, subF, h, hm]
    simp only [List.length_cons] at hlen
    rw [subF_fuel m p cs.length rest.length rest (by omega) le_rfl]

/-- On accepted-match-free text the pass is the identity and records
nothing. -/
theorem reSub_id {m : SMap} {p : VarPat} :
    ∀ n s, s.length ≤ n → noAcc m p s → reSub m p s = (s, []) := by
  intro n
  induction n with
  | zero =>
    intro s h _
    have : s = [] := List.length_eq_zero.mp (Nat.le_zero.mp h)
    subst this
    rfl
  | succ n ih =>
    intro s hlen hna
    cases s with
    | nil => rfl
    | cons c cs =>
      cases hma : matchAt p (c :: cs) with
      | none =>
        rw [reSub_copy hma]
        have hcs : noAcc m p cs := fun i => by simpa using hna (i + 1)
        simp only [List.length_cons] at hlen
        rw [ih cs (by omega) hcs]
      | some tup =>
        obtain ⟨g1, ds, span, rest⟩ := tup
        have h0 := hna 0
        simp only [List.drop_zero, acceptsAt, hma] at h0
        have hmf : mapFind m ds = none := by
          cases hv : mapFind m ds with
          | none => rfl
          | some v => rw [hv] at h0; simp at h0
        rw [reSub_skip hma hmf]
        obtain ⟨hs, hlen2⟩ := matchAt_consume hma
        have hrest : noAcc m p rest := by
          intro i
          have hd := hna (span.length + i)
          rw [hs, List.drop_append] at hd
          exact hd
        simp only [List.length_cons] at hlen hlen2
        rw [ih rest (by omega) hrest, ← hs]

/-! ## Substring membership and no-digit tails -/

theorem hasSub_mem {a : Char} {ntl u : Str} (h : hasSub (a :: ntl) u = true) : a ∈ u := by
  induction u with
  | nil => simp [hasSub] at h
  | cons c cs ih =>
    simp only [hasSub, Bool.or_eq_true] at h
    rcases h with h | h
    · obtain ⟨t, ht⟩ := List.isPrefixOf_iff_prefix.mp h
      rw [List.cons_append] at ht
      injection ht with h1 _
      subst h1
      exact List.mem_cons_self _ _
    · exact List.mem_cons_of_mem _ (ih h)

theorem hasSub_spr_mem {u : Str} (h : hasSub (chars "spr") u = true) : 's' ∈ u := by
  have e : chars "spr" = 's' :: ('p' :: ('r' :: [])) := rfl
  rw [e] at h
  exact hasSub_mem h

theorem hasSub_spr_digits {u : Str} (h : ∀ c ∈ u, isDigitC c = true) :
    hasSub (chars "spr") u = false := by
  cases hb : hasSub (chars "spr") u with
  | false => rfl
  | true => exact absurd (h _ (hasSub_spr_mem hb)) (by decide)

/-- Walking whitespace off the front of `u ++ ';' :: T` lands either on
the semicolon or on a non-space character of `u`. -/
theorem dws_semi (u T : Str) :
    (u ++ ';' :: T).dropWhile isSpaceC = ';' :: T
    ∨ ∃ e u₂, (u ++ ';' :: T).dropWhile isSpaceC = e :: (u₂ ++ ';' :: T)
        ∧ e ∈ u ∧ isSpaceC e = false ∧ ∀ c ∈ u₂, c ∈ u := by
  induction u with
  | nil =>
    left
    simp [List.dropWhile_cons, show isSpaceC ';' = false by decide]
  | cons c cs ih =>
    by_cases hc : isSpaceC c = true
    · rcases ih with h | ⟨e, u₂, he, hmem, hsp, hsub⟩
      · left
        simpa [List.dropWhile_cons, hc] using h
      · right
        exact ⟨e, u₂, by simpa [List.dropWhile_cons, hc] using he,
          List.mem_cons_of_mem _ hmem, hsp,
          fun x hx => List.mem_cons_of_mem _ (hsub x hx)⟩
    · right
      refine ⟨c, cs, ?_, List.mem_cons_self _ _, by simpa using hc, ?_⟩
      · simp [List.dropWhile_cons, hc]
      · exact fun x hx => List.mem_cons_of_mem _ hx

/-- The assignment tail can never match inside text that contains no digit
before the closing semicolon. -/
theorem matchTail_nodig {u T : Str} (hu : ∀ c ∈ u, isDigitC c = false) :
    matchTail (u ++ ';' :: T) = none := by
  unfold matchTail
  rcases dws_semi u T with h | ⟨e, u₂, he, hmem, _, hsub⟩
  · rw [h]
    simp
  · rw [he]
    by_cases he2 : e = '='
    · subst he2
      simp only [if_pos rfl]
      rcases dws_semi u₂ T with h2 | ⟨e2, u₃, he3, hmem2, _, _⟩
      · rw [h2]
        simp [List.takeWhile_cons, show isDigitC ';' = false by decide]
      · rw [he3]
        have hnd : isDigitC e2 = false := hu e2 (hsub e2 hmem2)
        simp [List.takeWhile_cons, hnd]
    · simp [he2]

/-! ## The last non-space character before a position -/

theorem lastNS_digit {B ds W3 : Str} (hds : ds ≠ [])
    (hdig : ∀ c ∈ ds, isDigitC c = true) (hW3 : ∀ c ∈ W3, isSpaceC c = true) :
    ∃ d, (((B ++ (ds ++ W3)).reverse.dropWhile isSpaceC).head? = some d
      ∧ isDigitC d = true) := by
  have hrev : (B ++ (ds ++ W3)).reverse = W3.reverse ++ (ds.reverse ++ B.reverse) := by
    simp [List.reverse_append]
  rw [hrev, List.dropWhile_append_of_pos
    (fun c hc => hW3 c (List.mem_reverse.mp hc))]
  cases hr : ds.reverse with
  | nil => exact absurd (by simpa using hr) hds
  | cons d dtl =>
    have hd : isDigitC d = true := hdig d (by
      have : d ∈ ds.reverse := by rw [hr]; exact List.mem_cons_self _ _
      exact List.mem_reverse.mp this)
    simp [List.dropWhile_cons, (dig_props hd).1, hd]

theorem lastNS_nodig {B w v : Str} (hw : ∀ c ∈ w, isSpaceC c = true)
    (hv : ∀ c ∈ v, isDigitC c = false) :
    ∃ e, (((B ++ '=' :: (w ++ v)).reverse.dropWhile isSpaceC).head? = some e
      ∧ isDigitC e = false) := by
  have hrev : (B ++ '=' :: (w ++ v)).reverse
      = v.reverse ++ (w.reverse ++ '=' :: B.reverse) := by
    simp [List.reverse_append, List.reverse_cons, List.append_assoc]
  rw [hrev]
  have base : ∀ u : Str, (∀ c ∈ u, isDigitC c = false) →
      ∃ e, ((u ++ (w.reverse ++ '=' :: B.reverse)).dropWhile isSpaceC).head? = some e
        ∧ isDigitC e = false := by
    intro u
    induction u with
    | nil =>
      intro _
      rw [List.nil_append, List.dropWhile_append_of_pos
        (fun c hc => hw c (List.mem_reverse.mp hc))]
      exact ⟨'=', by simp [List.dropWhile_cons, show isSpaceC '=' = false by decide],
        by decide⟩
    | cons c cs ih =>
      intro hu
      by_cases hc : isSpaceC c = true
      · obtain ⟨e, he, hed⟩ := ih (fun x hx => hu x (List.mem_cons_of_mem _ hx))
        exact ⟨e, by simpa [List.dropWhile_cons, hc] using he, hed⟩
      · refine ⟨c, ?_, hu c (List.mem_cons_self _ _)⟩
        simp [List.dropWhile_cons, hc]
  exact base v.reverse (fun c hc => hv c (List.mem_reverse.mp hc))

/-! ## Position bookkeeping -/

theorem drop_seg {u R : Str} (i : Nat) :
    (i ≤ u.length ∧ (u ++ R).drop i = u.drop i ++ R)
    ∨ (∃ j, i = u.length + j ∧ (u ++ R).drop i = R.drop j) := by
  by_cases h : i ≤ u.length
  · exact Or.inl ⟨h, List.drop_append_of_le_length h⟩
  · refine Or.inr ⟨i - u.length, by omega, ?_⟩
    rw [show i = u.length + (i - u.length) by omega, List.drop_append]
    congr 1
    omega

/-! ## Small acceptance helpers -/

theorem acceptsAt_none {m : SMap} {p : VarPat} {s : Str}
    (h : matchAt p s = none) : acceptsAt m p s = false := by
  simp [acceptsAt, h]

theorem acceptsAt_skipped {m : SMap} {p : VarPat} {s g1 ds span rest : Str}
    (h : matchAt p s = some (g1, ds, span, rest)) (hm : mapFind m ds = none) :
    acceptsAt m p s = false := by
  simp [acceptsAt, h, hm]

theorem matchAt_wild_tw_nil {inner s : Str} (hinner : inner ≠ [])
    (h : s.takeWhile isWordC = []) : matchAt (.wild inner) s = none := by
  have he : hasSub inner ([] : Str) = false := by
    cases inner with
    | nil => exact absurd rfl hinner
    | cons a tl => rfl
  simp [matchAt, h, he]

theorem matchAt_wild_none_head {inner : Str} {c : Char} {cs : Str}
    (hinner : inner ≠ []) (hc : isWordC c = false) :
    matchAt (.wild inner) (c :: cs) = none :=
  matchAt_wild_tw_nil hinner (by simp [List.takeWhile_cons, hc])

/-- Transfer from the literal pattern to the wildcard pattern: any accepted
match of `sprite_index` is also an accepted match of `\w*spr\w*`. -/
theorem acceptsAt_pat1_pat2 {m : SMap} {s : Str}
    (h : acceptsAt m pat1 s = true) : acceptsAt m pat2 s = true := by
  unfold acceptsAt at h ⊢
  cases hma : matchAt pat1 s with
  | none => rw [hma] at h; simp at h
  | some tup =>
    obtain ⟨g1, ds, span, rest⟩ := tup
    rw [hma] at h
    rw [pat1_to_pat2 hma]
    exact h

theorem noAcc_pat2_pat1 {m : SMap} {s : Str} (h : noAcc m pat2 s) :
    noAcc m pat1 s := by
  intro i
  cases hb : acceptsAt m pat1 (s.drop i) with
  | false => rfl
  | true => exact absurd (acceptsAt_pat1_pat2 hb) (by simp [h i])

/-! ## Divergence decomposition of a pattern-2 pass -/

/-- A pass either returns the text unchanged, or the text splits at the
first accepted match: an unchanged prefix, the matched span, and a rest,
with the output carrying the replacement fragment in the span's place. -/
theorem reSub_div (m : SMap) :
    ∀ n s, s.length ≤ n →
      (reSub m pat2 s).1 = s
      ∨ ∃ t g1 w1 w2 ds w3 v rest,
          s = t ++ (g1 ++ (w1 ++ '=' :: (w2 ++ (ds ++ (w3 ++ ';' :: rest)))))
          ∧ (reSub m pat2 s).1
            = (t ++ (g1 ++ (' ' :: '=' :: ' ' :: (v ++ [';']))))
              ++ (reSub m pat2 rest).1
          ∧ mapFind m ds = some v := by
  intro n
  induction n with
  | zero =>
    intro s hl
    left
    have : s = [] := List.length_eq_zero.mp (Nat.le_zero.mp hl)
    subst this
    rfl
  | succ n ih =>
    intro s hl
    cases s with
    | nil => left; rfl
    | cons c cs =>
      simp only [List.length_cons] at hl
      cases hma : matchAt pat2 (c :: cs) with
      | none =>
        rcases ih cs (by omega) with hid | ⟨t, g1, w1, w2, ds, w3, v, rest, hcs, hres, hfind⟩
        · left
          rw [reSub_copy hma, hid]
        · right
          refine ⟨c :: t, g1, w1, w2, ds, w3, v, rest, by rw [hcs]; rfl, ?_, hfind⟩
          rw [reSub_copy hma, hres]
          rfl
      | some tup =>
        obtain ⟨g1, ds, span, rest0⟩ := tup
        obtain ⟨hs, hlen⟩ := matchAt_consume hma
        cases hmf : mapFind m ds with
        | some v =>
          right
          obtain ⟨w1, w2, w3, hs2, hspan, hw1, hw2, hw3, hne, hdig⟩ := matchAt_shape hma
          refine ⟨[], g1, w1, w2, ds, w3, v, rest0, ?_, ?_, hmf⟩
          · rw [hs2, hspan]
            simp [List.append_assoc]
          · rw [reSub_hit hma hmf]
            have hch : chars " = " = [' ', '=', ' '] := rfl
            rw [hch]
            rfl
        | none =>
          rw [reSub_skip hma hmf]
          have hr0 : rest0.length ≤ n := by
            simp only [List.length_cons] at hlen
            omega
          rcases ih rest0 hr0 with hid | ⟨t, g1x, w1, w2, dsx, w3, v, rest, hcs, hres, hfind⟩
          · left
            rw [hid, ← hs]
          · right
            refine ⟨span ++ t, g1x, w1, w2, dsx, w3, v, rest, ?_, ?_, hfind⟩
            · rw [hs, hcs]
              simp [List.append_assoc]
            · rw [hres]
              simp [List.append_assoc]

/-! ## Safety of positions inside emitted fragments and kept spans -/

theorem head_nonword_sp_eq {w R : Str} (hw : ∀ c ∈ w, isSpaceC c = true) :
    ∀ c, (w ++ '=' :: R).head? = some c → isWordC c = false := by
  intro c hc
  cases w with
  | nil => injection hc with hc; subst hc; decide
  | cons e etl =>
    injection hc with hc; subst hc
    exact (sp_props (hw _ (by simp))).1

theorem head_nonword_sp_semi {w T : Str} (hw : ∀ c ∈ w, isSpaceC c = true) :
    ∀ c, (w ++ ';' :: T).head? = some c → isWordC c = false := by
  intro c hc
  cases w with
  | nil => injection hc with hc; subst hc; decide
  | cons e etl =>
    injection hc with hc; subst hc
    exact (sp_props (hw _ (by simp))).1

theorem matchAt_wild_none_of_tail {inner s : Str}
    (h : matchTail (s.dropWhile isWordC) = none) :
    matchAt (.wild inner) s = none := by
  simp only [matchAt, h]
  split <;> rfl

/-- No pattern-2 match can start strictly inside a replacement fragment
`g1 ++ " = " ++ v ++ ";"` whose value has no digits and no semicolon. -/
theorem hit_safe {m : SMap} {g1 v T : Str} (i : Nat)
    (hg : ∀ c ∈ g1, isWordC c = true)
    (hv : ∀ c ∈ v, isDigitC c = false ∧ c ≠ ';')
    (hi : i < (g1 ++ (' ' :: '=' :: ' ' :: (v ++ [';']))).length) :
    acceptsAt m pat2
      (((g1 ++ (' ' :: '=' :: ' ' :: (v ++ [';']))) ++ T).drop i) = false := by
  have hnd : ∀ c ∈ ' ' :: '=' :: ' ' :: v, isDigitC c = false := by
    intro c hc
    simp only [List.mem_cons] at hc
    rcases hc with rfl | rfl | rfl | hc
    · decide
    · decide
    · decide
    · exact (hv c hc).1
  have hre : (g1 ++ (' ' :: '=' :: ' ' :: (v ++ [';']))) ++ T
      = g1 ++ ((' ' :: '=' :: ' ' :: (v ++ [';'])) ++ T) := by
    simp [List.append_assoc]
  rw [hre]
  rcases drop_seg (u := g1) (R := (' ' :: '=' :: ' ' :: (v ++ [';'])) ++ T) i with
    ⟨hle, heq⟩ | ⟨j, hij, heq⟩
  · rw [heq]
    apply acceptsAt_none
    apply matchAt_wild_none_of_tail
    rw [List.dropWhile_append_of_pos (fun c hc => hg c (List.mem_of_mem_drop hc))]
    have hh : ((' ' :: '=' :: ' ' :: (v ++ [';'])) ++ T).dropWhile isWordC
        = (' ' :: '=' :: ' ' :: v) ++ ';' :: T := by
      simp [List.dropWhile_cons, show isWordC ' ' = false by decide, List.append_assoc]
    rw [hh]
    exact matchTail_nodig hnd
  · rw [heq]
    have hj : j ≤ (' ' :: '=' :: ' ' :: v).length := by
      simp only [List.length_append, List.length_cons, List.length_nil] at hi ⊢
      omega
    have hre2 : (' ' :: '=' :: ' ' :: (v ++ [';'])) ++ T
        = (' ' :: '=' :: ' ' :: v) ++ ';' :: T := by
      simp [List.append_assoc]
    rw [hre2, List.drop_append_of_le_length hj]
    apply acceptsAt_none
    apply matchAt_wild_none_of_tail
    have hsb : ∀ c ∈ ((' ' :: '=' :: ' ' :: v).drop j).dropWhile isWordC,
        isDigitC c = false := by
      intro c hc
      exact hnd c (List.mem_of_mem_drop ((List.dropWhile_sublist _).subset hc))
    have hdw := @List.dropWhile_append _ isWordC
      ((' ' :: '=' :: ' ' :: v).drop j) (';' :: T)
    by_cases hemp : (((' ' :: '=' :: ' ' :: v).drop j).dropWhile isWordC).isEmpty
    · rw [if_pos hemp] at hdw
      rw [hdw]
      have hh : List.dropWhile isWordC (';' :: T) = ';' :: T := by
        simp [List.dropWhile_cons, show isWordC ';' = false by decide]
      rw [hh]
      exact matchTail_nodig (u := []) (by intro c hc; simp at hc)
    · rw [if_neg hemp] at hdw
      rw [hdw]
      exact matchTail_nodig hsb

theorem matchAt_wild_none_nosub {inner s : Str}
    (h : hasSub inner (s.takeWhile isWordC) = false) :
    matchAt (.wild inner) s = none := by
  simp [matchAt, h]

/-- A position inside a kept span (unknown key) either fails to match or
re-matches with the same digit group, so it is never accepted. -/
theorem skip_safe (m : SMap) {g1 w1 w2 ds w3 T : Str} (i : Nat)
    (hg : ∀ c ∈ g1, isWordC c = true)
    (hw1 : ∀ c ∈ w1, isSpaceC c = true) (hw2 : ∀ c ∈ w2, isSpaceC c = true)
    (hw3 : ∀ c ∈ w3, isSpaceC c = true)
    (hds : ds ≠ []) (hdig : ∀ c ∈ ds, isDigitC c = true)
    (hmf : mapFind m ds = none)
    (hi : i < (g1 ++ (w1 ++ '=' :: (w2 ++ (ds ++ (w3 ++ [';']))))).length) :
    acceptsAt m pat2
      (((g1 ++ (w1 ++ '=' :: (w2 ++ (ds ++ (w3 ++ [';']))))) ++ T).drop i) = false := by
  have hinner : chars "spr" ≠ ([] : Str) := by decide
  have hre : (g1 ++ (w1 ++ '=' :: (w2 ++ (ds ++ (w3 ++ [';']))))) ++ T
      = g1 ++ (w1 ++ '=' :: (w2 ++ (ds ++ (w3 ++ ';' :: T)))) := by
    simp [List.append_assoc]
  rw [hre]
  rcases drop_seg (u := g1)
      (R := w1 ++ '=' :: (w2 ++ (ds ++ (w3 ++ ';' :: T)))) i with
    ⟨hle, heq⟩ | ⟨j, hij, heq⟩
  · rw [heq]
    have hgd : ∀ c ∈ g1.drop i, isWordC c = true :=
      fun c hc => hg c (List.mem_of_mem_drop hc)
    have htw : ((g1.drop i)
        ++ (w1 ++ '=' :: (w2 ++ (ds ++ (w3 ++ ';' :: T))))).takeWhile isWordC
        = g1.drop i := (tw_split hgd (head_nonword_sp_eq hw1)).1
    by_cases hsb : hasSub (chars "spr") (g1.drop i) = true
    · exact acceptsAt_skipped
        (@matchAt_build_wild (chars "spr") (g1.drop i) w1 w2 ds w3 T
          hgd hsb hw1 hw2 hw3 hds hdig) hmf
    · exact acceptsAt_none (matchAt_wild_none_nosub
        (by rw [htw]; exact eq_false_of_ne_true hsb))
  · rw [heq]
    rcases drop_seg (u := w1) (R := '=' :: (w2 ++ (ds ++ (w3 ++ ';' :: T)))) j with
      ⟨hle2, heq2⟩ | ⟨j₂, hij2, heq2⟩
    · rw [heq2]
      apply acceptsAt_none
      apply matchAt_wild_tw_nil hinner
      cases hwd : w1.drop j with
      | nil => simp [hwd, List.takeWhile_cons, show isWordC '=' = false by decide]
      | cons e etl =>
        have he : e ∈ w1 := List.mem_of_mem_drop (hwd ▸ List.mem_cons_self e etl)
        simp [hwd, List.takeWhile_cons, (sp_props (hw1 e he)).1]
    · rw [heq2]
      cases j₂ with
      | zero =>
        exact acceptsAt_none (matchAt_wild_none_head hinner (by decide))
      | succ j₃ =>
        simp only [List.drop_succ_cons]
        rcases drop_seg (u := w2) (R := ds ++ (w3 ++ ';' :: T)) j₃ with
          ⟨hle3, heq3⟩ | ⟨j₄, hij4, heq3⟩
        · rw [heq3]
          cases hwd : w2.drop j₃ with
          | nil =>
            rw [List.nil_append]
            have htw : (ds ++ (w3 ++ ';' :: T)).takeWhile isWordC = ds :=
              (tw_split (fun c hc => dig_word (hdig c hc))
                (head_nonword_sp_semi hw3)).1
            exact acceptsAt_none (matchAt_wild_none_nosub
              (by rw [htw]; exact hasSub_spr_digits hdig))
          | cons e etl =>
            apply acceptsAt_none
            apply matchAt_wild_tw_nil hinner
            have he : e ∈ w2 := List.mem_of_mem_drop (hwd ▸ List.mem_cons_self e etl)
            simp [hwd, List.takeWhile_cons, (sp_props (hw2 e he)).1]
        · rw [heq3]
          rcases drop_seg (u := ds) (R := w3 ++ ';' :: T) j₄ with
            ⟨hle4, heq4⟩ | ⟨j₅, hij5, heq4⟩
          · rw [heq4]
            have hdd : ∀ c ∈ ds.drop j₄, isDigitC c = true :=
              fun c hc => hdig c (List.mem_of_mem_drop hc)
            have htw : ((ds.drop j₄) ++ (w3 ++ ';' :: T)).takeWhile isWordC
                = ds.drop j₄ :=
              (tw_split (fun c hc => dig_word (hdd c hc))
                (head_nonword_sp_semi hw3)).1
            exact acceptsAt_none (matchAt_wild_none_nosub
              (by rw [htw]; exact hasSub_spr_digits hdd))
          · rw [heq4]
            rcases drop_seg (u := w3) (R := ';' :: T) j₅ with
              ⟨hle5, heq5⟩ | ⟨j₆, hij6, heq5⟩
            · rw [heq5]
              apply acceptsAt_none
              apply matchAt_wild_tw_nil hinner
              cases hwd : w3.drop j₅ with
              | nil =>
                simp [hwd, List.takeWhile_cons, show isWordC ';' = false by decide]
              | cons e etl =>
                have he : e ∈ w3 :=
                  List.mem_of_mem_drop (hwd ▸ List.mem_cons_self e etl)
                simp [hwd, List.takeWhile_cons, (sp_props (hw3 e he)).1]
            · cases j₆ with
              | zero =>
                rw [heq5]
                exact acceptsAt_none (matchAt_wild_none_head hinner (by decide))
              | succ j₇ =>
                exfalso
                simp only [List.length_append, List.length_cons,
                  List.length_nil] at hi
                omega

/-- No pattern-2 match is accepted at a position where the original scan
copied a character: either the output agrees with the original text there
(and the original had no match), or the match would have to end at or
cross a replacement fragment, which its character classes forbid. -/
theorem copy_safe {m : SMap} (hm : valsOK m) {c : Char} {cs : Str}
    (hma : matchAt pat2 (c :: cs) = none) :
    acceptsAt m pat2 (c :: (reSub m pat2 cs).1) = false := by
  cases hD : matchAt pat2 (c :: (reSub m pat2 cs).1) with
  | none => exact acceptsAt_none hD
  | some tup =>
    obtain ⟨G, DS, span, rest₂⟩ := tup
    exfalso
    rcases reSub_div m cs.length cs le_rfl with
      hid | ⟨t, g1, w1, w2, ds, w3, v, rest, hcs, hres, hfind⟩
    · rw [hid, hma] at hD
      simp at hD
    · have hvprops : ∀ x ∈ v, isDigitC x = false ∧ x ≠ ';' :=
        fun x hx => hm ds v hfind x hx
      obtain ⟨W1, W2, W3, hDs, hspan, hW1, hW2, hW3, hne, hdigg⟩ := matchAt_shape hD
      obtain ⟨hGname, -⟩ :=
        matchAt_wild_name (show matchAt (.wild (chars "spr")) _ = _ from hD)
      have hGword : ∀ x ∈ G, isWordC x = true := by
        rw [hGname]; exact fun x hx => List.mem_takeWhile_imp hx
      have hspan2 : span = (G ++ (W1 ++ '=' :: (W2 ++ (DS ++ W3)))) ++ [';'] := by
        rw [hspan]; simp [List.append_assoc]
      have hAnosemi : ∀ x ∈ G ++ (W1 ++ '=' :: (W2 ++ (DS ++ W3))), x ≠ ';' := by
        intro x hx
        simp only [List.mem_append, List.mem_cons] at hx
        rcases hx with hx | hx | rfl | hx | hx | hx
        · exact (word_props (hGword x hx)).2.1
        · exact (sp_props (hW1 x hx)).2.2.1
        · decide
        · exact (sp_props (hW2 x hx)).2.2.1
        · exact (dig_props (hdigg x hx)).2.1
        · exact (sp_props (hW3 x hx)).2.2.1
      have hDdecomp : c :: (reSub m pat2 cs).1
          = (c :: (t ++ g1)) ++ (((' ' :: '=' :: ' ' :: v) ++ [';'])
            ++ (reSub m pat2 rest).1) := by
        rw [hres]; simp [List.append_assoc]
      have hD2 : span ++ rest₂
          = (c :: (t ++ g1)) ++ (((' ' :: '=' :: ' ' :: v) ++ [';'])
            ++ (reSub m pat2 rest).1) := by
        rw [← hDs, hDdecomp]
      rcases Nat.lt_or_ge (c :: (t ++ g1)).length span.length with hnp | hnp
      · -- the match reaches into the replacement fragment
        have hk : span = (c :: (t ++ g1))
            ++ ((((' ' :: '=' :: ' ' :: v) ++ [';']) ++ (reSub m pat2 rest).1).take
              (span.length - (c :: (t ++ g1)).length)) := by
          have h1 : span = (span ++ rest₂).take span.length := (List.take_left _ _).symm
          rw [hD2] at h1
          conv_lhs =>
            rw [h1,
              show span.length = (c :: (t ++ g1)).length
                + (span.length - (c :: (t ++ g1)).length) from by omega,
              List.take_append]
        have hk1 : 1 ≤ span.length - (c :: (t ++ g1)).length := by omega
        rcases Nat.lt_trichotomy (span.length - (c :: (t ++ g1)).length)
            ((' ' :: '=' :: ' ' :: v).length + 1) with hklt | hkeq | hkgt
        · -- the match would end strictly inside the fragment before its
          -- semicolon: but its last character must be a semicolon
          have hkle : span.length - (c :: (t ++ g1)).length
              ≤ (' ' :: '=' :: ' ' :: v).length := by omega
          have hmid : ((((' ' :: '=' :: ' ' :: v) ++ [';'])
                ++ (reSub m pat2 rest).1).take
                  (span.length - (c :: (t ++ g1)).length))
              = (' ' :: '=' :: ' ' :: v).take
                  (span.length - (c :: (t ++ g1)).length) := by
            rw [List.take_append_of_le_length (by
                simp only [List.length_append, List.length_cons,
                  List.length_nil] at hklt ⊢
                omega),
              List.take_append_of_le_length hkle]
          have hlast1 : span.getLast? = some ';' := by
            rw [hspan2]; exact List.getLast?_concat _
          have htkne : (' ' :: '=' :: ' ' :: v).take
              (span.length - (c :: (t ++ g1)).length) ≠ [] := by
            intro hcon
            have hlt := congrArg List.length hcon
            rw [List.length_take] at hlt
            simp only [List.length_cons, List.length_nil, List.length_append]
              at hlt hklt hk1
            omega
          have hlast2 : span.getLast?
              = ((' ' :: '=' :: ' ' :: v).take
                  (span.length - (c :: (t ++ g1)).length)).getLast? := by
            conv_lhs => rw [hk, hmid]
            exact List.getLast?_append_of_ne_nil _ htkne
          have hsemi : ';' ∈ (' ' :: '=' :: ' ' :: v).take
              (span.length - (c :: (t ++ g1)).length) :=
            List.mem_of_mem_getLast? (by rw [← hlast2, hlast1]; simp)
          have hsemi2 : ';' ∈ ' ' :: '=' :: ' ' :: v :=
            List.take_subset _ _ hsemi
          simp only [List.mem_cons] at hsemi2
          rcases hsemi2 with h' | h' | h' | h'
          · exact absurd h' (by decide)
          · exact absurd h' (by decide)
          · exact absurd h' (by decide)
          · exact absurd rfl (hvprops ';' h').2
        · -- the match ends exactly at the fragment's semicolon: the digit
          -- group would have to end inside the value, which has no digit
          have hmid : ((((' ' :: '=' :: ' ' :: v) ++ [';'])
                ++ (reSub m pat2 rest).1).take
                  (span.length - (c :: (t ++ g1)).length))
              = (' ' :: '=' :: ' ' :: v) ++ [';'] := by
            rw [hkeq, show (' ' :: '=' :: ' ' :: v).length + 1
              = ((' ' :: '=' :: ' ' :: v) ++ [';']).length by simp, List.take_left]
          have hspanPF : span
              = ((c :: (t ++ g1)) ++ (' ' :: '=' :: ' ' :: v)) ++ [';'] := by
            rw [hk, hmid]; simp [List.append_assoc]
          have hAeq : G ++ (W1 ++ '=' :: (W2 ++ (DS ++ W3)))
              = (c :: (t ++ g1)) ++ (' ' :: '=' :: ' ' :: v) :=
            List.append_cancel_right (by rw [← hspan2, hspanPF])
          have hA2 : G ++ (W1 ++ '=' :: (W2 ++ (DS ++ W3)))
              = (G ++ (W1 ++ '=' :: W2)) ++ (DS ++ W3) := by
            simp [List.append_assoc]
          have hA3 : G ++ (W1 ++ '=' :: (W2 ++ (DS ++ W3)))
              = ((c :: (t ++ g1)) ++ [' ']) ++ '=' :: ([' '] ++ v) := by
            rw [hAeq]; simp [List.append_assoc]
          obtain ⟨d, hdhead, hddig⟩ :=
            lastNS_digit (B := G ++ (W1 ++ '=' :: W2)) hne hdigg hW3
          obtain ⟨e, hehead, hend⟩ :=
            lastNS_nodig (B := (c :: (t ++ g1)) ++ [' ']) (w := [' ']) (v := v)
              (by intro x hx; simp only [List.mem_singleton] at hx; subst hx; decide)
              (fun x hx => (hvprops x hx).1)
          rw [← hA2] at hdhead
          rw [← hA3] at hehead
          rw [hdhead] at hehead
          injection hehead with hde
          rw [hde] at hddig
          rw [hddig] at hend
          exact absurd hend (by simp)
        · -- the match crosses the fragment's semicolon: that semicolon
          -- would sit strictly inside the match, where no semicolon is
          -- allowed
          have hkR : ((((' ' :: '=' :: ' ' :: v) ++ [';'])
                ++ (reSub m pat2 rest).1).take
                  (span.length - (c :: (t ++ g1)).length))
              = ((' ' :: '=' :: ' ' :: v) ++ [';'])
                ++ ((reSub m pat2 rest).1.take
                  (span.length - (c :: (t ++ g1)).length
                    - ((' ' :: '=' :: ' ' :: v).length + 1))) := by
            have hidx : ((' ' :: '=' :: ' ' :: v) ++ [';']).length
                + (span.length - (c :: (t ++ g1)).length
                  - ((' ' :: '=' :: ' ' :: v).length + 1))
                = span.length - (c :: (t ++ g1)).length := by
              simp only [List.length_append, List.length_cons, List.length_nil]
                at hkgt ⊢
              omega
            conv_lhs => rw [← hidx]
            rw [List.take_append]
          have hDlen : span.length ≤ (c :: (t ++ g1)).length
              + (((' ' :: '=' :: ' ' :: v) ++ [';']).length
                + (reSub m pat2 rest).1.length) := by
            have h0 : span.length ≤ (span ++ rest₂).length := by simp
            rw [hD2] at h0
            simp only [List.length_append, List.length_cons, List.length_nil]
              at h0 ⊢
            omega
          have hRtne : (reSub m pat2 rest).1.take
              (span.length - (c :: (t ++ g1)).length
                - ((' ' :: '=' :: ' ' :: v).length + 1)) ≠ [] := by
            intro hcon
            have hlt := congrArg List.length hcon
            rw [List.length_take] at hlt
            simp only [List.length_nil] at hlt
            simp only [List.length_append, List.length_cons, List.length_nil]
              at hDlen hkgt hlt
            omega
          have hspanP : span = ((c :: (t ++ g1))
                ++ ((' ' :: '=' :: ' ' :: v) ++ [';']))
              ++ ((reSub m pat2 rest).1.take
                (span.length - (c :: (t ++ g1)).length
                  - ((' ' :: '=' :: ' ' :: v).length + 1))) := by
            conv_lhs => rw [hk, hkR]
            simp [List.append_assoc]
          have hA1 : span.dropLast = G ++ (W1 ++ '=' :: (W2 ++ (DS ++ W3))) := by
            rw [hspan2]; exact List.dropLast_concat
          have hA2 : span.dropLast = ((c :: (t ++ g1))
                ++ ((' ' :: '=' :: ' ' :: v) ++ [';']))
              ++ ((reSub m pat2 rest).1.take
                (span.length - (c :: (t ++ g1)).length
                  - ((' ' :: '=' :: ' ' :: v).length + 1))).dropLast := by
            conv_lhs => rw [hspanP]
            exact List.dropLast_append_of_ne_nil _ hRtne
          have hsemiA : ';' ∈ G ++ (W1 ++ '=' :: (W2 ++ (DS ++ W3))) := by
            rw [← hA1, hA2]
            simp
          exact absurd rfl (hAnosemi ';' hsemiA)
      · -- the whole span lies in the unchanged prefix: the original text
        -- would also match, contradicting the copy step
        have h1 : span = (span ++ rest₂).take span.length := (List.take_left _ _).symm
        have h2 : (span ++ rest₂).take span.length
            = (c :: (t ++ g1)).take span.length := by
          rw [hD2, List.take_append_of_le_length hnp]
        have hSdec : c :: cs = (c :: (t ++ g1))
            ++ (w1 ++ '=' :: (w2 ++ (ds ++ (w3 ++ ';' :: rest)))) := by
          rw [hcs]; simp [List.append_assoc]
        have h3 : (c :: cs).take span.length = (c :: (t ++ g1)).take span.length := by
          rw [hSdec, List.take_append_of_le_length hnp]
        have hspanS : (c :: cs).take span.length = span := by rw [h3, ← h2, ← h1]
        have hSfull : c :: cs = span ++ (c :: cs).drop span.length := by
          conv_lhs => rw [← List.take_append_drop span.length (c :: cs), hspanS]
        have hcontra := matchAt_span hD ((c :: cs).drop span.length)
        rw [← hSfull, hma] at hcontra
        simp at hcontra

/-! ## Main theorem: output of a pattern-2 pass admits no accepted match -/

theorem noAcc_pass2 (m : SMap) (hm : valsOK m) :
    ∀ n s, s.length ≤ n → noAcc m pat2 (reSub m pat2 s).1 := by
  intro n
  induction n with
  | zero =>
    intro s hl i
    have : s = [] := List.length_eq_zero.mp (Nat.le_zero.mp hl)
    subst this
    have hres : (reSub m pat2 ([] : Str)).1 = [] := rfl
    rw [hres, List.drop_nil]
    exact acceptsAt_none (matchAt_nil _)
  | succ n ih =>
    intro s hl
    cases s with
    | nil =>
      intro i
      have hres : (reSub m pat2 ([] : Str)).1 = [] := rfl
      rw [hres, List.drop_nil]
      exact acceptsAt_none (matchAt_nil _)
    | cons c cs =>
      simp only [List.length_cons] at hl
      cases hma : matchAt pat2 (c :: cs) with
      | none =>
        have hres : (reSub m pat2 (c :: cs)).1 = c :: (reSub m pat2 cs).1 := by
          rw [reSub_copy hma]
        rw [hres]
        intro i
        cases i with
        | zero =>
          rw [List.drop_zero]
          exact copy_safe hm hma
        | succ j =>
          rw [List.drop_succ_cons]
          exact ih cs (by omega) j
      | some tup =>
        obtain ⟨g1, ds, span, rest⟩ := tup
        obtain ⟨hs, hlen⟩ := matchAt_consume hma
        simp only [List.length_cons] at hlen
        obtain ⟨w1, w2, w3, hs2, hspan, hw1, hw2, hw3, hne, hdig⟩ := matchAt_shape hma
        obtain ⟨hgname, hsub⟩ :=
          matchAt_wild_name (show matchAt (.wild (chars "spr")) _ = _ from hma)
        have hgword : ∀ x ∈ g1, isWordC x = true := by
          rw [hgname]; exact fun x hx => List.mem_takeWhile_imp hx
        cases hmf : mapFind m ds with
        | none =>
          have hres : (reSub m pat2 (c :: cs)).1 = span ++ (reSub m pat2 rest).1 := by
            rw [reSub_skip hma hmf]
          rw [hres]
          intro i
          by_cases hile : span.length ≤ i
          · rw [show i = span.length + (i - span.length) by omega, List.drop_append]
            exact ih rest (by omega) _
          · push_neg at hile
            rw [hspan]
            apply skip_safe m i hgword hw1 hw2 hw3 hne hdig hmf
            rw [← hspan]
            exact hile
        | some v =>
          have hres : (reSub m pat2 (c :: cs)).1
              = (g1 ++ (chars " = " ++ (v ++ [';']))) ++ (reSub m pat2 rest).1 := by
            rw [reSub_hit hma hmf]
          rw [hres]
          intro i
          by_cases hile : (g1 ++ (chars " = " ++ (v ++ [';']))).length ≤ i
          · rw [show i = (g1 ++ (chars " = " ++ (v ++ [';']))).length
              + (i - (g1 ++ (chars " = " ++ (v ++ [';']))).length) by omega,
              List.drop_append]
            exact ih rest (by omega) _
          · push_neg at hile
            have hvp : ∀ x ∈ v, isDigitC x = false ∧ x ≠ ';' :=
              fun x hx => hm ds v hmf x hx
            exact @hit_safe m g1 v ((reSub m pat2 rest).1) i hgword hvp hile

/-! ## Line-level pass structure and idempotence -/

theorem lineSub_eq (m : SMap) (l : Str) :
    lineSub m l = ((reSub m pat2 (reSub m pat1 l).1).1,
      (reSub m pat1 l).2 ++ (reSub m pat2 (reSub m pat1 l).1).2) := by
  simp [lineSub, SPRITE_VARS]

/-- The line rewrite is a fixed point after one application, provided no
mapping value contains a digit or a semicolon: the second application
changes nothing and produces no substitution events. -/
theorem lineSub_fixed (m : SMap) (hm : valsOK m) (l : Str) :
    lineSub m (lineSub m l).1 = ((lineSub m l).1, []) := by
  have hna2 : noAcc m pat2 (lineSub m l).1 := by
    rw [lineSub_eq]
    exact noAcc_pass2 m hm _ _ le_rfl
  have hna1 : noAcc m pat1 (lineSub m l).1 := noAcc_pat2_pat1 hna2
  rw [lineSub_eq (l := (lineSub m l).1),
    reSub_id _ _ le_rfl hna1, reSub_id _ _ le_rfl hna2]
  rfl

/-! ## File-level characterizations -/

theorem replaceLines_newlines (m : SMap) (fname : Str) :
    ∀ i ls, (replaceLines m fname i ls).newlines
      = ls.map (fun l => (lineSub m l).1) := by
  intro i ls
  induction ls generalizing i with
  | nil => rfl
  | cons l ls ih => simp [replaceLines, ih]

theorem replaceLines_msgs_recs (m : SMap) (fname : Str) :
    ∀ i ls, (replaceLines m fname i ls).msgs.length
      = (replaceLines m fname i ls).recs.length := by
  intro i ls
  induction ls generalizing i with
  | nil => rfl
  | cons l ls ih => simp [replaceLines, ih]

theorem replaceLines_changed_false (m : SMap) (fname : Str) :
    ∀ i ls, (replaceLines m fname i ls).changed = false
      ↔ ∀ l ∈ ls, (lineSub m l).1 = l := by
  intro i ls
  induction ls generalizing i with
  | nil => simp [replaceLines]
  | cons l ls ih =>
    simp only [replaceLines, Bool.or_eq_false_iff, bne_eq_false_iff_eq,
      List.mem_cons, forall_eq_or_imp, ih]

theorem reSub_recs_nil (m : SMap) (p : VarPat) :
    ∀ n s, s.length ≤ n → (reSub m p s).2 = [] → (reSub m p s).1 = s := by
  intro n
  induction n with
  | zero =>
    intro s hl _
    have : s = [] := List.length_eq_zero.mp (Nat.le_zero.mp hl)
    subst this
    rfl
  | succ n ih =>
    intro s hl hr
    cases s with
    | nil => rfl
    | cons c cs =>
      simp only [List.length_cons] at hl
      cases hma : matchAt p (c :: cs) with
      | none =>
        rw [reSub_copy hma] at hr ⊢
        rw [ih cs (by omega) hr]
      | some tup =>
        obtain ⟨g1, ds, span, rest⟩ := tup
        obtain ⟨hs, hlen⟩ := matchAt_consume hma
        simp only [List.length_cons] at hlen
        cases hmf : mapFind m ds with
        | some v =>
          rw [reSub_hit hma hmf] at hr
          simp at hr
        | none =>
          rw [reSub_skip hma hmf] at hr ⊢
          rw [ih rest (by omega) hr, ← hs]

theorem lineSub_recs_nil {m : SMap} {l : Str} (h : (lineSub m l).2 = []) :
    (lineSub m l).1 = l := by
  rw [lineSub_eq] at h ⊢
  simp only [List.append_eq_nil] at h
  have h1 : (reSub m pat1 l).1 = l := reSub_recs_nil m pat1 _ _ le_rfl h.1
  rw [h1] at h ⊢
  exact reSub_recs_nil m pat2 _ _ le_rfl h.2

theorem replaceLines_changed_recs (m : SMap) (fname : Str) :
    ∀ i ls, (replaceLines m fname i ls).changed = true
      → (replaceLines m fname i ls).recs ≠ [] := by
  intro i ls
  induction ls generalizing i with
  | nil => simp [replaceLines]
  | cons l ls ih =>
    intro hch
    simp only [replaceLines, Bool.or_eq_true] at hch ⊢
    rcases hch with hch | hch
    · have hne : (lineSub m l).2 ≠ [] := by
        intro hcon
        rw [lineSub_recs_nil hcon] at hch
        simp at hch
      cases hmap : (lineSub m l).2 with
      | nil => exact absurd hmap hne
      | cons a tl => simp [hmap]
    · have := ih (i + 1) hch
      intro hcon
      rcases List.append_eq_nil.mp hcon with ⟨-, h2⟩
      exact this h2

/-! ## Filesystem lemmas -/

theorem fsRead_write (fs : FS) (p : Str) (x : List Str) (q : Str) :
    fsRead (fsWrite fs p x) q = if q = p then some x else fsRead fs q := by
  simp only [fsRead, fsWrite, List.find?]
  by_cases h : q = p
  · subst h
    simp
  · have : (p == q) = false := by
      cases hb : p == q with
      | false => rfl
      | true => exact absurd (beq_iff_eq.mp hb).symm h
    simp [this, if_neg h]

theorem bakName_ne_self (p : Str) : bakName p ≠ p := by
  intro h
  have := congrArg List.length h
  simp [bakName, chars] at this

theorem bakName_inj {p q : Str} (h : bakName p = bakName q) : p = q :=
  List.append_cancel_right h

theorem suffix_getLast {u w : Str} (h : u.isSuffixOf w = true) (hu : u ≠ []) :
    w.getLast? = u.getLast? := by
  obtain ⟨t, ht⟩ := List.isSuffixOf_iff_suffix.mp h
  rw [← ht]
  exact List.getLast?_append_of_ne_nil _ hu

theorem bak_not_eligible (p : Str) : eligible (bakName p) = false := by
  cases he : eligible (bakName p) with
  | false => rfl
  | true =>
    exfalso
    simp only [eligible, CODE_EXTENSIONS, List.any_eq_true, List.mem_cons,
      List.not_mem_nil, or_false] at he
    obtain ⟨ext, hmem, hsuf⟩ := he
    have hlast : (bakName p).getLast? = some 'k' := by
      rw [bakName, show chars ".bak" = chars ".ba" ++ ['k'] from rfl,
        ← List.append_assoc]
      exact List.getLast?_concat _
    rcases hmem with rfl | rfl | rfl
    · rw [suffix_getLast hsuf (by decide)] at hlast
      exact absurd hlast (by decide)
    · rw [suffix_getLast hsuf (by decide)] at hlast
      exact absurd hlast (by decide)
    · rw [suffix_getLast hsuf (by decide)] at hlast
      exact absurd hlast (by decide)

theorem eligible_ne_bak {f p : Str} (hf : eligible f = true) : f ≠ bakName p := by
  intro h
  rw [h, bak_not_eligible] at hf
  exact absurd hf (by simp)

/-- Unfolded success conditions of the per-file I/O wrapper. -/
theorem replaceInFileFS_spec {m : SMap} {fs : FS} {p : Str} {fs1 : FS}
    {run : FileRun} (h : replaceInFileFS m fs p = .ok (fs1, run)) :
    ∃ lines, fsRead fs p = some lines ∧ run = replace_in_file m p lines
      ∧ (run.changed = true →
          fs1 = fsWrite (backup_file fs p lines) p run.newlines)
      ∧ (run.changed = false → fs1 = fs) := by
  unfold replaceInFileFS at h
  cases hread : fsRead fs p with
  | none => rw [hread] at h; simp at h
  | some lines =>
    rw [hread] at h
    simp only at h
    split at h
    · rename_i hch
      refine ⟨lines, rfl, ?_, ?_, ?_⟩
      · injection h with h
        injection h with h1 h2
        exact h2.symm
      · intro _
        injection h with h
        injection h with h1 h2
        rw [← h1, ← h2]
      · intro hf
        injection h with h
        injection h with h1 h2
        rw [← h2] at hf
        rw [hf] at hch
        simp at hch
    · rename_i hch
      refine ⟨lines, rfl, ?_, ?_, ?_⟩
      · injection h with h
        injection h with h1 h2
        exact h2.symm
      · intro ht
        injection h with h
        injection h with h1 h2
        rw [← h2] at ht
        rw [ht] at hch
        simp at hch
      · intro _
        injection h with h
        injection h with h1 h2
        exact h1.symm

/-- A per-file step only ever writes the file itself and its backup. -/
theorem replaceInFileFS_other {m : SMap} {fs : FS} {p : Str} {fs1 : FS}
    {run : FileRun} (h : replaceInFileFS m fs p = .ok (fs1, run)) :
    ∀ q, q ≠ p → q ≠ bakName p → fsRead fs1 q = fsRead fs q := by
  intro q hqp hqb
  obtain ⟨lines, hread, hrun, hch, hnc⟩ := replaceInFileFS_spec h
  cases hc : run.changed with
  | false => rw [hnc hc]
  | true =>
    rw [hch hc, fsRead_write, if_neg hqp]
    unfold backup_file
    split
    · rw [fsRead_write, if_neg hqb]
    · rfl

/-- A per-file step never destroys an existing entry at another key. -/
theorem replaceInFileFS_keep {m : SMap} {fs : FS} {p : Str} {fs1 : FS}
    {run : FileRun} {b : Str} {x : List Str} (h : replaceInFileFS m fs p = .ok (fs1, run))
    (hbp : b ≠ p) (hb : fsRead fs b = some x) : fsRead fs1 b = some x := by
  obtain ⟨lines, hread, hrun, hch, hnc⟩ := replaceInFileFS_spec h
  cases hc : run.changed with
  | false => rw [hnc hc]; exact hb
  | true =>
    rw [hch hc, fsRead_write, if_neg hbp]
    unfold backup_file
    split
    · rename_i hbak
      rw [fsRead_write]
      split
      · rename_i hbb
        rw [hbb] at hb
        rw [hb] at hbak
        simp at hbak
      · exact hb
    · exact hb

/-! ## Walk-level structure -/

theorem scanGo_cons_elig {m : SMap} {fs : FS} {f : Str} {rest : List Str}
    {r : ScanResult} (he : eligible f = true)
    (h : scanGo m fs (f :: rest) = .ok r) :
    ∃ fs1 run r', replaceInFileFS m fs f = .ok (fs1, run)
      ∧ scanGo m fs1 rest = .ok r'
      ∧ r = ⟨r'.fs,
          (if run.changed then [f] else []) ++ r'.replaced,
          (if run.changed then run.recs.map (fun rr => (f, rr)) else [])
            ++ r'.reps,
          (chars "Checking: " ++ f) :: (run.msgs ++ r'.gui),
          run.msgs ++ r'.logm,
          (chars "Scanning: " ++ f) :: r'.status⟩ := by
  unfold scanGo at h
  rw [if_pos he] at h
  cases h1 : replaceInFileFS m fs f with
  | error e => rw [h1] at h; simp at h
  | ok pr =>
    obtain ⟨fs1, run⟩ := pr
    rw [h1] at h
    dsimp only at h
    cases h2 : scanGo m fs1 rest with
    | error e => rw [h2] at h; simp at h
    | ok r2 =>
      rw [h2] at h
      dsimp only at h
      simp only [Except.ok.injEq] at h
      exact ⟨fs1, run, r2, rfl, h2, h.symm⟩

theorem scanGo_cons_inel {m : SMap} {fs : FS} {f : Str} {rest : List Str}
    {r : ScanResult} (he : eligible f = false)
    (h : scanGo m fs (f :: rest) = .ok r) : scanGo m fs rest = .ok r := by
  unfold scanGo at h
  rw [if_neg (by simp [he])] at h
  exact h

theorem scanGo_nil {m : SMap} {fs : FS} {r : ScanResult}
    (h : scanGo m fs [] = .ok r) : r = ⟨fs, [], [], [], [], []⟩ := by
  unfold scanGo at h
  simp only [Except.ok.injEq] at h
  exact h.symm

/-- Replaced files are eligible members of the walk. -/
theorem scanGo_replaced_sub (m : SMap) :
    ∀ files fs r, scanGo m fs files = .ok r →
      ∀ f ∈ r.replaced, f ∈ files ∧ eligible f = true := by
  intro files
  induction files with
  | nil =>
    intro fs r h f hf
    rw [scanGo_nil h] at hf
    simp at hf
  | cons f₀ rest ih =>
    intro fs r h f hf
    cases he : eligible f₀ with
    | false =>
      have := ih fs r (scanGo_cons_inel he h) f hf
      exact ⟨List.mem_cons_of_mem _ this.1, this.2⟩
    | true =>
      obtain ⟨fs1, run, r', h1, h2, hr⟩ := scanGo_cons_elig he h
      rw [hr] at hf
      simp only [List.mem_append] at hf
      rcases hf with hf | hf
      · split at hf
        · simp only [List.mem_singleton] at hf
          subst hf
          exact ⟨List.mem_cons_self _ _, he⟩
        · simp at hf
      · have := ih fs1 r' h2 f hf
        exact ⟨List.mem_cons_of_mem _ this.1, this.2⟩

/-- The walk never destroys an entry at a key that is not an eligible
file: in particular backup files survive every run unchanged. -/
theorem scanGo_keep (m : SMap) :
    ∀ files fs r b x, scanGo m fs files = .ok r → eligible b = false →
      fsRead fs b = some x → fsRead r.fs b = some x := by
  intro files
  induction files with
  | nil =>
    intro fs r b x h _ hb
    rw [scanGo_nil h]
    exact hb
  | cons f₀ rest ih =>
    intro fs r b x h hbe hb
    cases he : eligible f₀ with
    | false => exact ih fs r b x (scanGo_cons_inel he h) hbe hb
    | true =>
      obtain ⟨fs1, run, r', h1, h2, hr⟩ := scanGo_cons_elig he h
      have hbne : b ≠ f₀ := by
        intro hcon
        rw [hcon, he] at hbe
        exact absurd hbe (by simp)
      have hb1 : fsRead fs1 b = some x := replaceInFileFS_keep h1 hbne hb
      have := ih fs1 r' b x h2 hbe hb1
      rw [hr]
      exact this

/-- Backup bookkeeping across a run: every file reported replaced has a
backup afterwards, and when no backup existed at the start of the run the
backup holds that file's content from just before its rewrite. -/
theorem scan_bak (m : SMap) :
    ∀ files fs r, scanGo m fs files = .ok r → files.Nodup →
      ∀ f ∈ r.replaced,
        ∃ bak, fsRead r.fs (bakName f) = some bak
          ∧ (fsRead fs (bakName f) = none →
              ∃ l0, fsRead fs f = some l0 ∧ bak = l0) := by
  intro files
  induction files with
  | nil =>
    intro fs r h _ f hf
    rw [scanGo_nil h] at hf
    simp at hf
  | cons f₀ rest ih =>
    intro fs r h hnd f hf
    have hnd0 : f₀ ∉ rest := (List.nodup_cons.mp hnd).1
    have hndr : rest.Nodup := (List.nodup_cons.mp hnd).2
    cases he : eligible f₀ with
    | false => exact ih fs r (scanGo_cons_inel he h) hndr f hf
    | true =>
      obtain ⟨fs1, run, r', h1, h2, hr⟩ := scanGo_cons_elig he h
      obtain ⟨lines, hread, hrun, hch, hnc⟩ := replaceInFileFS_spec h1
      rw [hr] at hf
      simp only [List.mem_append] at hf
      rcases hf with hf | hf
      · -- f is the current file, so the step changed it
        have hchd : run.changed = true := by
          cases hc : run.changed with
          | true => rfl
          | false => rw [hc] at hf; simp at hf
        rw [if_pos hchd] at hf
        simp only [List.mem_singleton] at hf
        subst hf
        rw [hch hchd] at h2
        cases hbak : fsRead fs (bakName f) with
        | none =>
          -- a fresh backup is created holding the pre-rewrite content
          have hb1 : fsRead (fsWrite (backup_file fs f lines) f run.newlines)
              (bakName f) = some lines := by
            rw [fsRead_write, if_neg (bakName_ne_self f)]
            unfold backup_file
            rw [if_pos hbak, fsRead_write, if_pos rfl]
          have := scanGo_keep m rest _ r' (bakName f) lines h2
            (bak_not_eligible f) hb1
          rw [hr]
          exact ⟨lines, this, fun _ => ⟨lines, hread, rfl⟩⟩
        | some b0 =>
          -- the backup already existed and is never refreshed
          have hb1 : fsRead (fsWrite (backup_file fs f lines) f run.newlines)
              (bakName f) = some b0 := by
            rw [fsRead_write, if_neg (bakName_ne_self f)]
            unfold backup_file
            rw [if_neg (by rw [hbak]; simp)]
            exact hbak
          have := scanGo_keep m rest _ r' (bakName f) b0 h2
            (bak_not_eligible f) hb1
          rw [hr]
          exact ⟨b0, this, fun hcon => absurd hcon (by simp)⟩
      · -- f was replaced later in the walk
        obtain ⟨bak, hbr, himpl⟩ := ih fs1 r' h2 hndr f hf
        have hfmem : f ∈ rest := (scanGo_replaced_sub m rest fs1 r' h2 f hf).1
        have hfel : eligible f = true := (scanGo_replaced_sub m rest fs1 r' h2 f hf).2
        have hff0 : f ≠ f₀ := fun hcon => hnd0 (hcon ▸ hfmem)
        refine ⟨bak, by rw [hr]; exact hbr, ?_⟩
        intro hnone
        have hbne : bakName f ≠ f₀ := fun hcon => eligible_ne_bak he hcon.symm
        have hbnb : bakName f ≠ bakName f₀ := fun hcon => hff0 (bakName_inj hcon)
        have hb1 : fsRead fs1 (bakName f) = fsRead fs (bakName f) :=
          replaceInFileFS_other h1 (bakName f) hbne hbnb
        obtain ⟨l0, hl0, hbl⟩ := himpl (by rw [hb1]; exact hnone)
        have hfne : f ≠ f₀ := hff0
        have hfnb : f ≠ bakName f₀ := eligible_ne_bak hfel
        have : fsRead fs1 f = fsRead fs f := replaceInFileFS_other h1 f hfne hfnb
        rw [this] at hl0
        exact ⟨l0, hl0, hbl⟩

theorem scanGo_other (m : SMap) :
    ∀ files fs r q, scanGo m fs files = .ok r →
      (∀ g ∈ files, eligible g = true → q ≠ g ∧ q ≠ bakName g) →
      fsRead r.fs q = fsRead fs q := by
  intro files
  induction files with
  | nil =>
    intro fs r q h _
    rw [scanGo_nil h]
  | cons f₀ rest ih =>
    intro fs r q h hq
    cases he : eligible f₀ with
    | false =>
      exact ih fs r q (scanGo_cons_inel he h)
        (fun g hg => hq g (List.mem_cons_of_mem _ hg))
    | true =>
      obtain ⟨fs1, run, r', h1, h2, hr⟩ := scanGo_cons_elig he h
      obtain ⟨hq1, hq2⟩ := hq f₀ (List.mem_cons_self _ _) he
      have hstep : fsRead fs1 q = fsRead fs q :=
        replaceInFileFS_other h1 q hq1 hq2
      have := ih fs1 r' q h2 (fun g hg => hq g (List.mem_cons_of_mem _ hg))
      rw [hr]
      rw [this, hstep]

/-- After a run, every eligible file of the walk holds content on which a
further rewrite is the identity (valsOK mappings). -/
theorem scan_fixed (m : SMap) (hm : valsOK m) :
    ∀ files fs r, scanGo m fs files = .ok r →
      ∀ f ∈ files, eligible f = true →
        ∃ ls, fsRead r.fs f = some ls ∧ ∀ l ∈ ls, (lineSub m l).1 = l := by
  intro files
  induction files with
  | nil =>
    intro fs r h f hf
    simp at hf
  | cons f₀ rest ih =>
    intro fs r h f hf hfe
    cases he : eligible f₀ with
    | false =>
      rcases List.mem_cons.mp hf with rfl | hf
      · rw [he] at hfe; exact absurd hfe (by simp)
      · exact ih fs r (scanGo_cons_inel he h) f hf hfe
    | true =>
      obtain ⟨fs1, run, r', h1, h2, hr⟩ := scanGo_cons_elig he h
      obtain ⟨lines, hread, hrun, hch, hnc⟩ := replaceInFileFS_spec h1
      rcases List.mem_cons.mp hf with rfl | hf
      · by_cases hmem : f ∈ rest
        · have := ih fs1 r' h2 f hmem hfe
          rw [hr]
          exact this
        · have hfs1 : ∃ ls, fsRead fs1 f = some ls
              ∧ ∀ l ∈ ls, (lineSub m l).1 = l := by
            cases hc : run.changed with
            | true =>
              refine ⟨run.newlines, ?_, ?_⟩
              · rw [hch hc, fsRead_write, if_pos rfl]
              · rw [hrun]
                unfold replace_in_file
                rw [replaceLines_newlines]
                intro l hl
                obtain ⟨l0, _, hl0⟩ := List.mem_map.mp hl
                rw [← hl0, lineSub_fixed m hm l0]
            | false =>
              refine ⟨lines, by rw [hnc hc]; exact hread, ?_⟩
              rw [hrun] at hc
              unfold replace_in_file at hc
              exact (replaceLines_changed_false m f 1 lines).mp hc
          obtain ⟨ls, hls, hfix⟩ := hfs1
          have hpres : fsRead r'.fs f = fsRead fs1 f := by
            apply scanGo_other m rest fs1 r' f h2
            intro g hg hge
            exact ⟨fun hcon => hmem (hcon ▸ hg), eligible_ne_bak hfe⟩
          rw [hr]
          exact ⟨ls, by rw [hpres]; exact hls, hfix⟩
      · have := ih fs1 r' h2 f hf hfe
        rw [hr]
        exact this

/-- A run over files whose content is already a fixed point reports no
file as changed. -/
theorem scan_second (m : SMap) :
    ∀ files fs r,
      (∀ f ∈ files, eligible f = true →
        ∃ ls, fsRead fs f = some ls ∧ ∀ l ∈ ls, (lineSub m l).1 = l) →
      scanGo m fs files = .ok r → r.replaced = [] := by
  intro files
  induction files with
  | nil =>
    intro fs r _ h
    rw [scanGo_nil h]
  | cons f₀ rest ih =>
    intro fs r hyp h
    cases he : eligible f₀ with
    | false =>
      exact ih fs r (fun f hf => hyp f (List.mem_cons_of_mem _ hf))
        (scanGo_cons_inel he h)
    | true =>
      obtain ⟨fs1, run, r', h1, h2, hr⟩ := scanGo_cons_elig he h
      obtain ⟨lines, hread, hrun, hch, hnc⟩ := replaceInFileFS_spec h1
      obtain ⟨ls, hread2, hfix⟩ := hyp f₀ (List.mem_cons_self _ _) he
      rw [hread] at hread2
      injection hread2 with hls
      subst hls
      have hc : run.changed = false := by
        rw [hrun]
        unfold replace_in_file
        exact (replaceLines_changed_false m f₀ 1 lines).mpr hfix
      rw [hnc hc] at h2
      have := ih fs r' (fun f hf => hyp f (List.mem_cons_of_mem _ hf)) h2
      rw [hr]
      simp [hc, this]

/-- Per-file outcome decomposition of a run: the changed list, the record
list, and the two log sinks are all assembled from the same per-file
outcomes, with one identical message list feeding both sinks. -/
theorem scanGo_decomp (m : SMap) :
    ∀ files fs r, scanGo m fs files = .ok r →
      ∃ outs : List (Str × FileRun),
        r.replaced = (outs.filter (fun o => o.2.changed)).map (fun o => o.1)
        ∧ r.reps = ((outs.filter (fun o => o.2.changed)).map
            (fun o => o.2.recs.map (fun rr => (o.1, rr)))).flatten
        ∧ r.logm = (outs.map (fun o => o.2.msgs)).flatten
        ∧ r.gui = (outs.map
            (fun o => (chars "Checking: " ++ o.1) :: o.2.msgs)).flatten
        ∧ (∀ o ∈ outs, o.2.msgs.length = o.2.recs.length)
        ∧ (∀ o ∈ outs, o.2.changed = true → o.2.recs ≠ []) := by
  intro files
  induction files with
  | nil =>
    intro fs r h
    rw [scanGo_nil h]
    exact ⟨[], rfl, rfl, rfl, rfl, by simp, by simp⟩
  | cons f₀ rest ih =>
    intro fs r h
    cases he : eligible f₀ with
    | false => exact ih fs r (scanGo_cons_inel he h)
    | true =>
      obtain ⟨fs1, run, r', h1, h2, hr⟩ := scanGo_cons_elig he h
      obtain ⟨lines, hread, hrun, hch, hnc⟩ := replaceInFileFS_spec h1
      obtain ⟨outs, ho1, ho2, ho3, ho4, ho5, ho6⟩ := ih fs1 r' h2
      refine ⟨(f₀, run) :: outs, ?_, ?_, ?_, ?_, ?_, ?_⟩
      · rw [hr]
        cases hc : run.changed with
        | true => simp [List.filter_cons, hc, ho1]
        | false => simp [List.filter_cons, hc, ho1]
      · rw [hr]
        cases hc : run.changed with
        | true => simp [List.filter_cons, hc, ho2]
        | false => simp [List.filter_cons, hc, ho2]
      · rw [hr]
        simp [ho3]
      · rw [hr]
        simp [ho4]
      · intro o ho
        rcases List.mem_cons.mp ho with rfl | ho
        · rw [hrun]
          unfold replace_in_file
          exact replaceLines_msgs_recs m f₀ 1 lines
        · exact ho5 o ho
      · intro o ho
        rcases List.mem_cons.mp ho with rfl | ho
        · intro hc
          rw [hrun] at hc ⊢
          unfold replace_in_file at hc ⊢
          exact replaceLines_changed_recs m f₀ 1 lines hc
        · exact ho6 o ho

/-! ## Run-level decomposition of scan_and_replace and misc helpers -/

theorem scan_spec {m : SMap} {fs : FS} {files : List Str} {logPath : Str}
    {r : ScanResult} (h : scan_and_replace m fs files logPath = .ok r) :
    ∃ r0, scanGo m fs files = .ok r0 ∧ r.fs = r0.fs ∧ r.replaced = r0.replaced
      ∧ r.reps = r0.reps
      ∧ r.gui = r0.gui ++ [mkSummary r0.replaced.length logPath]
      ∧ r.logm = r0.logm ++ [mkSummary r0.replaced.length logPath]
      ∧ r.status = r0.status ++ [chars "Done."] := by
  unfold scan_and_replace at h
  cases h0 : scanGo m fs files with
  | error e => rw [h0] at h; simp at h
  | ok r0 =>
    rw [h0] at h
    simp only [Except.ok.injEq] at h
    subst h
    exact ⟨r0, rfl, rfl, rfl, rfl, rfl, rfl, rfl⟩

theorem valsOKb_ok {m : SMap} (h : valsOKb m = true) : valsOK m := by
  intro k v hf c hc
  unfold mapFind at hf
  cases hfind : m.find? (fun kv => kv.1 == k) with
  | none => rw [hfind] at hf; simp at hf
  | some kv =>
    rw [hfind] at hf
    have hv : kv.2 = v := by simpa using hf
    have hmem : kv ∈ m := List.mem_of_find?_eq_some hfind
    unfold valsOKb at h
    rw [List.all_eq_true] at h
    have h1 := h kv hmem
    rw [List.all_eq_true] at h1
    have h2 := h1 c (by rw [hv]; exact hc)
    simp only [Bool.and_eq_true, Bool.not_eq_true', bne_iff_ne, ne_eq] at h2
    exact ⟨h2.1, h2.2⟩

theorem mapFind_insert (m : SMap) (k v : Str) :
    mapFind (mapInsert m k v) k = some v := by
  unfold mapInsert
  by_cases h : m.any (fun kv => kv.1 == k) = true
  · rw [if_pos h]
    induction m with
    | nil => simp at h
    | cons kv0 tl ih =>
      simp only [List.any_cons, Bool.or_eq_true] at h
      by_cases hk : (kv0.1 == k) = true
      · unfold mapFind
        rw [List.map_cons, List.find?_cons_of_pos _ (by simp [hk])]
        simp [hk]
      · rcases h with h | h
        · exact absurd h hk
        · have ihr := ih h
          unfold mapFind at ihr ⊢
          rw [List.map_cons, List.find?_cons_of_neg _ (by simp [hk])]
          exact ihr
  · rw [if_neg h]
    induction m with
    | nil =>
      unfold mapFind
      rw [List.nil_append, List.find?_cons_of_pos _ (by simp)]
      rfl
    | cons kv0 tl ih =>
      simp only [List.any_cons, Bool.or_eq_true, not_or] at h
      unfold mapFind
      rw [List.cons_append, List.find?_cons_of_neg _ (by simpa using h.1)]
      have := ih (by simpa using h.2)
      unfold mapFind at this
      exact this

theorem replaceLines_msgs_eq (m : SMap) (fname : Str) :
    ∀ i ls, (replaceLines m fname i ls).msgs
      = (replaceLines m fname i ls).recs.map
          (fun rr => fmtMsg fname rr.idx rr.orig rr.newtext) := by
  intro i ls
  induction ls generalizing i with
  | nil => rfl
  | cons l ls ih =>
    simp only [replaceLines, List.map_append, List.map_map, ih]
    rfl

theorem subF_recs_shape (m : SMap) (p : VarPat) :
    ∀ fuel s sr, sr ∈ (subF m p fuel s).2 →
      ∃ v, mapFind m sr.num = some v
        ∧ sr.newtext = sr.varname ++ (chars " = " ++ (v ++ [';'])) := by
  intro fuel
  induction fuel with
  | zero =>
    intro s sr h
    simp [subF] at h
  | succ n ih =>
    intro s sr h
    cases s with
    | nil => simp [subF] at h
    | cons c cs =>
      cases hma : matchAt p (c :: cs) with
      | none =>
        simp only [subF, hma] at h
        exact ih cs sr h
      | some tup =>
        obtain ⟨g1, ds, span, rest⟩ := tup
        cases hmf : mapFind m ds with
        | some v =>
          simp only [subF, hma, hmf] at h
          rcases List.mem_cons.mp h with rfl | h
          · exact ⟨v, hmf, rfl⟩
          · exact ih rest sr h
        | none =>
          simp only [subF, hma, hmf] at h
          exact ih rest sr h

theorem lineSub_recs_shape (m : SMap) (l : Str) :
    ∀ sr ∈ (lineSub m l).2,
      ∃ v, mapFind m sr.num = some v
        ∧ sr.newtext = sr.varname ++ (chars " = " ++ (v ++ [';'])) := by
  intro sr h
  rw [lineSub_eq] at h
  rcases List.mem_append.mp h with h | h
  · exact subF_recs_shape m pat1 _ _ sr h
  · exact subF_recs_shape m pat2 _ _ sr h

theorem replaceLines_recs_shape (m : SMap) (fname : Str) :
    ∀ i ls rr, rr ∈ (replaceLines m fname i ls).recs →
      ∃ g1 ds v, mapFind m ds = some v
        ∧ rr.newtext = g1 ++ (chars " = " ++ (v ++ [';'])) := by
  intro i ls
  induction ls generalizing i with
  | nil => intro rr h; simp [replaceLines] at h
  | cons l ls ih =>
    intro rr h
    simp only [replaceLines, List.mem_append] at h
    rcases h with h | h
    · obtain ⟨sr, hsr, rfl⟩ := List.mem_map.mp h
      obtain ⟨v, hv, hshape⟩ := lineSub_recs_shape m l sr hsr
      exact ⟨sr.varname, sr.num, v, hv, hshape⟩
    · exact ih (i + 1) rr h

theorem matchTail_word {d : Char} (t : Str) (hd : isWordC d = true) :
    matchTail (d :: t) = none := by
  have hsp : isSpaceC d = false := (word_props hd).1
  have hne : d ≠ '=' := (word_props hd).2.2
  unfold matchTail
  rw [show (d :: t).dropWhile isSpaceC = d :: t from by
    rw [List.dropWhile_cons, if_neg (by simp [hsp])]]
  dsimp only
  rw [if_neg hne]

theorem matchAt_lit_inside {tok u tail : Str}
    (hu : ∀ c ∈ u, isWordC c = true) (hlen : tok.length < u.length) :
    matchAt (.lit tok) (u ++ tail) = none := by
  simp only [matchAt]
  cases hpf : tok.isPrefixOf (u ++ tail) with
  | false => simp [hpf]
  | true =>
    rw [if_pos rfl]
    have hdrop : (u ++ tail).drop tok.length = u.drop tok.length ++ tail :=
      List.drop_append_of_le_length (le_of_lt hlen)
    cases hud : u.drop tok.length with
    | nil =>
      exfalso
      have := congrArg List.length hud
      simp only [List.length_drop, List.length_nil] at this
      omega
    | cons d t =>
      have hdmem : d ∈ u.drop tok.length := by
        rw [hud]; exact List.mem_cons_self d t
      have hdw : isWordC d = true := hu d (List.mem_of_mem_drop hdmem)
      rw [hdrop, hud, List.cons_append, matchTail_word _ hdw]

/-! ## Claim theorems -/

/-- C1: the walk does not contain a per-file IOError.  With the first
eligible file unreadable and the second present and rewritable, the whole
run returns an IOError and produces no aggregate result at all — the tree
walk is aborted instead of continuing with the next file. -/
theorem C1_io_error_aborts_walk :
    scan_and_replace [(chars "12", chars "spr_x")]
      [(chars "r/b.gml", [chars "sprite_index = 12;"])]
      [chars "r/a.gml", chars "r/b.gml"] (chars "log.txt")
      = .error () := by
  rfl

/-- C2 (amended): when no mapping value contains a digit character or a
semicolon, a second run of the pipeline over the tree produced by a first
run with the same mapping reports no file as changed. -/
theorem C2_idempotent (m : SMap) (hm : valsOK m) (files : List Str) (fs : FS)
    (logPath1 logPath2 : Str) (r1 r2 : ScanResult)
    (h1 : scan_and_replace m fs files logPath1 = .ok r1)
    (h2 : scan_and_replace m r1.fs files logPath2 = .ok r2) :
    r2.replaced = [] := by
  obtain ⟨r0, hg0, hfs0, -, -, -, -, -⟩ := scan_spec h1
  obtain ⟨r3, hg3, -, hrep3, -, -, -, -⟩ := scan_spec h2
  rw [hrep3]
  rw [hfs0] at hg3
  apply scan_second m files r0.fs r3 ?_ hg3
  intro f hf hfe
  exact scan_fixed m hm files fs r0 hg0 f hf hfe

theorem C2_idempotent_witness :
    valsOKb wMap = true
    ∧ scan_and_replace wMap wFS wFiles wLog = .ok wR1
    ∧ scan_and_replace wMap wR1.fs wFiles wLog = .ok wR2
    ∧ wR2.replaced = [] :=
  ⟨by decide, rfl, rfl,
    C2_idempotent wMap (valsOKb_ok (by decide)) wFiles wFS wLog wLog wR1 wR2
      rfl rfl⟩

theorem C2_counterexample :
    scan_and_replace cexMap cexFS [chars "p/a.gml"] wLog = .ok cexR1
    ∧ scan_and_replace cexMap cexR1.fs [chars "p/a.gml"] wLog = .ok cexR2
    ∧ cexR2.replaced ≠ [] :=
  ⟨rfl, rfl, by decide⟩

/-- C3 (amended): after a run over distinct walk entries, every file
reported as changed has a sibling backup; when no backup existed at the
start of the run, the backup holds that file's content from immediately
before this run's write.  (A pre-existing backup is preserved instead of
being refreshed.) -/
theorem C3_backup (m : SMap) (files : List Str) (fs : FS) (logPath : Str)
    (r : ScanResult) (h : scan_and_replace m fs files logPath = .ok r)
    (hnd : files.Nodup) :
    ∀ f ∈ r.replaced,
      ∃ bak, fsRead r.fs (bakName f) = some bak
        ∧ (fsRead fs (bakName f) = none →
            ∃ l0, fsRead fs f = some l0 ∧ bak = l0) := by
  obtain ⟨r0, hg, hfs, hrep, -, -, -, -⟩ := scan_spec h
  rw [hfs, hrep]
  exact scan_bak m files fs r0 hg hnd

theorem C3_backup_witness :
    scan_and_replace wMap wFS wFiles wLog = .ok wR1
    ∧ wFiles.Nodup
    ∧ (∀ f ∈ wR1.replaced,
        ∃ bak, fsRead wR1.fs (bakName f) = some bak
          ∧ (fsRead wFS (bakName f) = none →
              ∃ l0, fsRead wFS f = some l0 ∧ bak = l0)) :=
  ⟨rfl, by decide, C3_backup wMap wFiles wFS wLog wR1 rfl (by decide)⟩

theorem C3_counterexample :
    scan_and_replace wMap staleFS [chars "p/a.gml"] wLog = .ok staleR
    ∧ staleR.replaced = [chars "p/a.gml"]
    ∧ fsRead staleFS (chars "p/a.gml") = some [chars "sprite_index = 12;"]
    ∧ fsRead staleR.fs (bakName (chars "p/a.gml")) = some [chars "old backup"]
    ∧ [chars "old backup"] ≠ [chars "sprite_index = 12;"] :=
  ⟨rfl, by decide, by decide, by decide, by decide⟩

/-- C4: a per-file step touches the filesystem only when at least one
ReplacementRecord was produced; an existing backup is never overwritten or
refreshed, neither by the step itself nor by any later run. -/
theorem C4_backup_once (m : SMap) (fs : FS) (p : Str) (fs1 : FS) (run : FileRun)
    (h : replaceInFileFS m fs p = .ok (fs1, run)) :
    (fs1 ≠ fs → run.recs ≠ [])
    ∧ (∀ b0, fsRead fs (bakName p) = some b0 →
        fsRead fs1 (bakName p) = some b0)
    ∧ (∀ files r logPath b0, scan_and_replace m fs1 files logPath = .ok r →
        fsRead fs1 (bakName p) = some b0 → fsRead r.fs (bakName p) = some b0) := by
  obtain ⟨lines, hread, hrun, hch, hnc⟩ := replaceInFileFS_spec h
  refine ⟨?_, ?_, ?_⟩
  · intro hne
    cases hc : run.changed with
    | false => exact absurd (hnc hc) hne
    | true =>
      rw [hrun] at hc ⊢
      unfold replace_in_file at hc ⊢
      exact replaceLines_changed_recs m p 1 lines hc
  · intro b0 hb0
    exact replaceInFileFS_keep h (bakName_ne_self p) hb0
  · intro files r logPath b0 hscan hb0
    obtain ⟨r0, hg, hfs, -, -, -, -, -⟩ := scan_spec hscan
    rw [hfs]
    exact scanGo_keep m files fs1 r0 (bakName p) b0 hg (bak_not_eligible p) hb0

theorem C4_backup_once_witness :
    replaceInFileFS wMap staleFS (chars "p/a.gml") = .ok (stale1.1, stale1.2)
    ∧ ((stale1.1 ≠ staleFS → stale1.2.recs ≠ [])
      ∧ (∀ b0, fsRead staleFS (bakName (chars "p/a.gml")) = some b0 →
          fsRead stale1.1 (bakName (chars "p/a.gml")) = some b0)
      ∧ (∀ files r logPath b0,
          scan_and_replace wMap stale1.1 files logPath = .ok r →
          fsRead stale1.1 (bakName (chars "p/a.gml")) = some b0 →
          fsRead r.fs (bakName (chars "p/a.gml")) = some b0)) :=
  ⟨rfl, C4_backup_once wMap staleFS (chars "p/a.gml") stale1.1 stale1.2 rfl⟩

/-- C5: at a matched span, a digit group that is a key of the mapping makes
the whole span become `varname = value;` with the value inserted verbatim,
a digit group that is no key leaves the span in place, and a line without
any accepted match is returned unchanged; the spec's concrete examples
follow. -/
theorem C5_exact_match (m : SMap) (p : VarPat) (s g1 ds span rest v : Str)
    (hmat : matchAt p s = some (g1, ds, span, rest)) :
    (mapFind m ds = some v →
        (reSub m p s).1
          = (g1 ++ (chars " = " ++ (v ++ [';']))) ++ (reSub m p rest).1)
    ∧ (mapFind m ds = none →
        (reSub m p s).1 = span ++ (reSub m p rest).1)
    ∧ (noAcc m p s → (reSub m p s).1 = s)
    ∧ (lineSub exMap (chars "sprite_index = 12;")).1
        = chars "sprite_index = spr_player_idle;"
    ∧ (lineSub exMap (chars "sprite_index = 13;")).1
        = chars "sprite_index = 13;" := by
  refine ⟨fun hv => ?_, fun hn => ?_, fun hna => ?_, by decide, by decide⟩
  · rw [reSub_hit hmat hv]
  · rw [reSub_skip hmat hn]
  · exact congrArg Prod.fst (reSub_id s.length s le_rfl hna)

theorem C5_exact_match_witness :
    matchAt pat1 (chars "sprite_index = 12;")
      = some (chars "sprite_index", chars "12", chars "sprite_index = 12;", [])
    ∧ ((mapFind exMap (chars "12") = some (chars "spr_player_idle") →
          (reSub exMap pat1 (chars "sprite_index = 12;")).1
            = (chars "sprite_index"
                ++ (chars " = " ++ (chars "spr_player_idle" ++ [';'])))
              ++ (reSub exMap pat1 []).1)
      ∧ (mapFind exMap (chars "12") = none →
          (reSub exMap pat1 (chars "sprite_index = 12;")).1
            = chars "sprite_index = 12;" ++ (reSub exMap pat1 []).1)
      ∧ (noAcc exMap pat1 (chars "sprite_index = 12;") →
          (reSub exMap pat1 (chars "sprite_index = 12;")).1
            = chars "sprite_index = 12;")
      ∧ (lineSub exMap (chars "sprite_index = 12;")).1
          = chars "sprite_index = spr_player_idle;"
      ∧ (lineSub exMap (chars "sprite_index = 13;")).1
          = chars "sprite_index = 13;") :=
  ⟨by decide,
    C5_exact_match exMap pat1 (chars "sprite_index = 12;") (chars "sprite_index")
      (chars "12") (chars "sprite_index = 12;") [] (chars "spr_player_idle")
      (by decide)⟩

/-- C6 (amended): each accepted substitution's ReplacementRecord carries as
its new-text field the replacement fragment `varname = value;` — the state
of the matched span after the substitution, not the full line — the two
log sinks are fed from one message list formatted as
`[basename:idx] strip(orig) → fragment`, and every session-log line also
reaches the GUI sink. -/
theorem C6_record_and_sinks (m : SMap) (fname : Str) (lines : List Str)
    (fs : FS) (files : List Str) (logPath : Str) (r : ScanResult)
    (h : scan_and_replace m fs files logPath = .ok r) :
    ((replace_in_file m fname lines).msgs
        = (replace_in_file m fname lines).recs.map
            (fun rr => fmtMsg fname rr.idx rr.orig rr.newtext))
    ∧ (∀ rr ∈ (replace_in_file m fname lines).recs,
        ∃ g1 ds v, mapFind m ds = some v
          ∧ rr.newtext = g1 ++ (chars " = " ++ (v ++ [';'])))
    ∧ (∀ msg ∈ r.logm, msg ∈ r.gui) := by
  refine ⟨replaceLines_msgs_eq m fname 1 lines, ?_, ?_⟩
  · intro rr hrr
    exact replaceLines_recs_shape m fname 1 lines rr hrr
  · intro msg hmsg
    obtain ⟨r0, hg, -, -, -, hgui, hlogm, -⟩ := scan_spec h
    obtain ⟨outs, -, -, ho3, ho4, -, -⟩ := scanGo_decomp m files fs r0 hg
    rw [hlogm] at hmsg
    rw [hgui]
    rcases List.mem_append.mp hmsg with hmsg | hmsg
    · apply List.mem_append_left
      rw [ho3] at hmsg
      rw [ho4]
      obtain ⟨blk, hblk, hmb⟩ := List.mem_flatten.mp hmsg
      obtain ⟨o, ho, rfl⟩ := List.mem_map.mp hblk
      exact List.mem_flatten.mpr
        ⟨_, List.mem_map.mpr ⟨o, ho, rfl⟩, List.mem_cons_of_mem _ hmb⟩
    · exact List.mem_append_right _ hmsg

theorem C6_record_and_sinks_witness :
    scan_and_replace wMap wFS wFiles wLog = .ok wR1
    ∧ (((replace_in_file wMap (chars "a.gml")
            [chars "x = 1; sprite_index = 12;"]).msgs
          = (replace_in_file wMap (chars "a.gml")
              [chars "x = 1; sprite_index = 12;"]).recs.map
              (fun rr => fmtMsg (chars "a.gml") rr.idx rr.orig rr.newtext))
      ∧ (∀ rr ∈ (replace_in_file wMap (chars "a.gml")
            [chars "x = 1; sprite_index = 12;"]).recs,
          ∃ g1 ds v, mapFind wMap ds = some v
            ∧ rr.newtext = g1 ++ (chars " = " ++ (v ++ [';'])))
      ∧ (∀ msg ∈ wR1.logm, msg ∈ wR1.gui)) :=
  ⟨rfl, C6_record_and_sinks wMap (chars "a.gml")
      [chars "x = 1; sprite_index = 12;"] wFS wFiles wLog wR1 rfl⟩

theorem C6_counterexample :
    (replace_in_file exMap (chars "a.gml")
        [chars "x = 1; sprite_index = 12;"]).recs
      = [⟨chars "x = 1; sprite_index = 12;",
          chars "sprite_index = spr_player_idle;", 1⟩]
    ∧ (replace_in_file exMap (chars "a.gml")
        [chars "x = 1; sprite_index = 12;"]).newlines
      = [chars "x = 1; sprite_index = spr_player_idle;"]
    ∧ chars "sprite_index = spr_player_idle;"
      ≠ chars "x = 1; sprite_index = spr_player_idle;" :=
  ⟨by decide, by decide, by decide⟩

/-- C7: the mapping loader skips lines that strip to nothing or start (after
stripping) with `#`, silently skips lines without a dash, otherwise splits
at the first dash and trims both sides; a repeated key keeps the last
occurrence's value; the spec's three-line example loads to the one-entry
map. -/
theorem C7_loader (m : SMap) (line k v : Str) :
    (stripC line = [] → loadLine m line = m)
    ∧ ((stripC line).head? = some '#' → loadLine m line = m)
    ∧ ((stripC line).contains '-' = false → loadLine m line = m)
    ∧ (stripC line ≠ [] → (stripC line).head? ≠ some '#' →
        (stripC line).contains '-' = true →
        loadLine m line = mapInsert m
          (stripC ((stripC line).takeWhile (fun c => c != '-')))
          (stripC (((stripC line).dropWhile (fun c => c != '-')).drop 1)))
    ∧ mapFind (mapInsert m k v) k = some v
    ∧ load_sprite_map [chars "# comment", chars "", chars "7-spr_x"]
        = [(chars "7", chars "spr_x")] := by
  refine ⟨?_, ?_, ?_, ?_, mapFind_insert m k v, by decide⟩
  · intro h
    simp only [loadLine]
    rw [if_pos h]
  · intro h
    simp only [loadLine]
    by_cases h0 : stripC line = []
    · rw [if_pos h0]
    · rw [if_neg h0, if_pos h]
  · intro h
    simp only [loadLine]
    by_cases h0 : stripC line = []
    · rw [if_pos h0]
    · rw [if_neg h0]
      by_cases h1 : (stripC line).head? = some '#'
      · rw [if_pos h1]
      · rw [if_neg h1, if_pos (by rw [h]; simp)]
  · intro h0 h1 h2
    simp only [loadLine]
    rw [if_neg h0, if_neg h1, if_neg (by rw [h2]; simp)]

/-- C8: a file whose content is unchanged by the pattern passes causes no
filesystem effect at all — the file is not rewritten and no backup is
created, so the filesystem after the step is the one before it. -/
theorem C8_no_write (m : SMap) (fs : FS) (p : Str) (fs1 : FS) (run : FileRun)
    (h : replaceInFileFS m fs p = .ok (fs1, run)) (hc : run.changed = false) :
    fs1 = fs := by
  obtain ⟨lines, -, -, -, hnc⟩ := replaceInFileFS_spec h
  exact hnc hc

theorem C8_no_write_witness :
    replaceInFileFS wMap quietFS (chars "q/u.gml") = .ok (quiet1.1, quiet1.2)
    ∧ quiet1.2.changed = false
    ∧ quiet1.1 = quietFS :=
  ⟨rfl, by decide,
    C8_no_write wMap quietFS (chars "q/u.gml") quiet1.1 quiet1.2 rfl (by decide)⟩

/-- C9 (amended): a run's outcome decomposes into per-file results so that
the changed-file list holds exactly the changed files, the returned record
list counts the substitutions of the changed files only, and the session
log holds one line per accepted substitution of every scanned file —
changed or not — plus a single summary line. -/
theorem C9_aggregates (m : SMap) (fs : FS) (files : List Str) (logPath : Str)
    (r : ScanResult) (h : scan_and_replace m fs files logPath = .ok r) :
    ∃ outs : List (Str × FileRun),
      r.replaced = (outs.filter (fun o => o.2.changed)).map (fun o => o.1)
      ∧ r.reps.length = ((outs.filter (fun o => o.2.changed)).map
          (fun o => o.2.recs.length)).sum
      ∧ r.logm.length = (outs.map (fun o => o.2.recs.length)).sum + 1 := by
  obtain ⟨r0, hg, -, hrep, hreps, -, hlogm, -⟩ := scan_spec h
  obtain ⟨outs, ho1, ho2, ho3, -, ho5, -⟩ := scanGo_decomp m files fs r0 hg
  refine ⟨outs, ?_, ?_, ?_⟩
  · rw [hrep, ho1]
  · rw [hreps, ho2, List.length_flatten, List.map_map]
    apply congrArg List.sum
    apply List.map_congr_left
    intro o ho
    simp
  · rw [hlogm, List.length_append, ho3, List.length_flatten, List.map_map]
    have hsum : (outs.map (List.length ∘ fun o => o.2.msgs)).sum
        = (outs.map (fun o => o.2.recs.length)).sum := by
      apply congrArg List.sum
      apply List.map_congr_left
      intro o ho
      simpa using ho5 o ho
    rw [hsum]
    rfl

theorem C9_aggregates_witness :
    scan_and_replace wMap wFS wFiles wLog = .ok wR1
    ∧ (∃ outs : List (Str × FileRun),
        wR1.replaced = (outs.filter (fun o => o.2.changed)).map (fun o => o.1)
        ∧ wR1.reps.length = ((outs.filter (fun o => o.2.changed)).map
            (fun o => o.2.recs.length)).sum
        ∧ wR1.logm.length = (outs.map (fun o => o.2.recs.length)).sum + 1) :=
  ⟨rfl, C9_aggregates wMap wFS wFiles wLog wR1 rfl⟩

theorem C9_counterexample :
    scan_and_replace cycMap cycFS [chars "c/a.gml"] wLog = .ok cycR
    ∧ cycR.replaced.length = 0
    ∧ cycR.reps.length = 0
    ∧ cycR.logm.length = 2 + 1 :=
  ⟨rfl, by decide, by decide, by decide⟩

/-- C10: the literal `sprite_index` rule carries no word boundary: on a
line `<word-prefix>sprite_index = <digits>;` whose digits are a mapping
key, the rule rewrites the `sprite_index = <digits>;` span inside the
longer identifier, the prefix survives in place, and the recorded variable
name is `sprite_index`. -/
theorem C10_inner_match (m : SMap) (pre ds v : Str)
    (hpre : ∀ c ∈ pre, isWordC c = true) (hds : ds ≠ [])
    (hdig : ∀ c ∈ ds, isDigitC c = true) (hv : mapFind m ds = some v) :
    reSub m pat1 (pre ++ (chars "sprite_index = " ++ (ds ++ [';'])))
      = (pre ++ (chars "sprite_index = " ++ (v ++ [';'])),
         [⟨chars "sprite_index", ds,
           chars "sprite_index" ++ (chars " = " ++ (v ++ [';']))⟩]) := by
  induction pre with
  | nil =>
    have hEq : ([] : Str) ++ (chars "sprite_index = " ++ (ds ++ [';']))
        = chars "sprite_index"
          ++ ([' '] ++ '=' :: ([' '] ++ (ds ++ ([] ++ ';' :: ([] : Str))))) := by
      simp [show chars "sprite_index = "
          = chars "sprite_index" ++ (' ' :: '=' :: [' ']) from by decide]
    have hma := @matchAt_build_lit (chars "sprite_index") [' '] [' '] ds []
      ([] : Str) (by decide) (by decide) (by simp) hds hdig
    have hma' : matchAt pat1
        (([] : Str) ++ (chars "sprite_index = " ++ (ds ++ [';'])))
        = some (chars "sprite_index", ds,
            chars "sprite_index"
              ++ ([' '] ++ '=' :: ([' '] ++ (ds ++ ([] ++ [';'])))), []) := by
      rw [hEq]
      exact hma
    rw [reSub_hit hma' hv]
    show ((chars "sprite_index" ++ (chars " = " ++ (v ++ [';']))) ++ [], _) = _
    simp [show chars "sprite_index = "
        = chars "sprite_index" ++ (' ' :: '=' :: [' ']) from by decide,
      show chars " = " = ' ' :: '=' :: [' '] from by decide]
    rfl
  | cons c pre ih =>
    have hc : isWordC c = true := hpre c (List.mem_cons_self _ _)
    have hpre' : ∀ x ∈ pre, isWordC x = true :=
      fun x hx => hpre x (List.mem_cons_of_mem _ hx)
    have hword : ∀ x ∈ c :: (pre ++ chars "sprite_index"), isWordC x = true := by
      intro x hx
      rcases List.mem_cons.mp hx with rfl | hx
      · exact hc
      · rcases List.mem_append.mp hx with hx | hx
        · exact hpre' x hx
        · have hSI : ∀ y ∈ chars "sprite_index", isWordC y = true := by decide
          exact hSI x hx
    have hlen : (chars "sprite_index").length
        < (c :: (pre ++ chars "sprite_index")).length := by
      simp only [List.length_cons, List.length_append]
      omega
    have hsplit : c :: (pre ++ (chars "sprite_index = " ++ (ds ++ [';'])))
        = (c :: (pre ++ chars "sprite_index"))
          ++ (' ' :: '=' :: ' ' :: (ds ++ [';'])) := by
      simp [show chars "sprite_index = "
          = chars "sprite_index" ++ (' ' :: '=' :: [' ']) from by decide]
    have hnone : matchAt pat1
        (c :: (pre ++ (chars "sprite_index = " ++ (ds ++ [';'])))) = none := by
      rw [hsplit]
      exact matchAt_lit_inside hword hlen
    rw [List.cons_append, reSub_copy hnone, ih hpre']
    simp

theorem C10_inner_match_witness :
    (∀ c ∈ chars "my_", isWordC c = true)
    ∧ reSub exMap pat1
        (chars "my_" ++ (chars "sprite_index = " ++ (chars "12" ++ [';'])))
      = (chars "my_" ++ (chars "sprite_index = "
            ++ (chars "spr_player_idle" ++ [';'])),
         [⟨chars "sprite_index", chars "12",
           chars "sprite_index"
             ++ (chars " = " ++ (chars "spr_player_idle" ++ [';']))⟩]) :=
  ⟨by decide,
    C10_inner_match exMap (chars "my_") (chars "12") (chars "spr_player_idle")
      (by decide) (by decide) (by decide) (by decide)⟩
